import Mathlib

/-!
# omega2-pwm: register programming of the Omega2 hardware PWM

A shallow embedding of `omega2-pwm.c` (functions `devmem` and `pwm`) and the
properties of its register-programming algorithm and of the mapping arithmetic
of `devmem`.

Machine integers are natural numbers with explicit reduction modulo `2^32` /
`2^64` where the C types truncate.  Behaviour that C leaves undefined (a
division by zero, a shift that overflows `int`, a read of the uninitialised
`result` of `devmem`) is the value `none`.

The register file is a store `mem : Nat → Nat` from the physical address of a
register to its 32-bit content; it retains what is written to it.  Every access
made through `devmem` is also appended to a chronological `log`, so that the
order of reads and writes can be stated.
-/

namespace Omega2Pwm

/-! ## Register map (the `#define`s of the source) -/

/-- PWM Enable register. -/
def PWM_ENABLE : Nat := 0x10005000
/-- PWM0 Control register. -/
def PWM0_CON : Nat := 0x10005010
/-- PWM0 High Duration register. -/
def PWM0_HDURATION : Nat := 0x10005014
/-- PWM0 Low Duration register. -/
def PWM0_LDURATION : Nat := 0x10005018
/-- PWM0 Guard Duration register. -/
def PWM0_GDURATION : Nat := 0x1000501C
/-- PWM0 Send Data0 register. -/
def PWM0_SEND_DATA0 : Nat := 0x10005030
/-- PWM0 Send Data1 register. -/
def PWM0_SEND_DATA1 : Nat := 0x10005034
/-- PWM0 Wave Number register. -/
def PWM0_WAVE_NUM : Nat := 0x10005038

/-! ## Hardware state and the access primitive -/

/-- One access performed by `devmem`: the address, the access size in bytes and
the value stored (for a write) or obtained (for a read). -/
inductive Access where
  | read (addr size value : Nat)
  | write (addr size value : Nat)
  deriving DecidableEq

/-- The register file together with the chronological log of accesses. -/
structure Hw where
  mem : Nat → Nat
  log : List Access

/-- The first `switch (size)` of `devmem`: the new content of a register cell
after a store of `size` bytes of `value` (`uint8_t`, `uint16_t` or `uint32_t`
store at the cell's address; a narrow store replaces the low-order bytes).  No
`case` matches any other size, and the cell is left as it is. -/
def storeCell (size value old : Nat) : Nat :=
  match size with
  | 1 => old / 2 ^ 8 % 2 ^ 24 * 2 ^ 8 + value % 2 ^ 8
  | 2 => old / 2 ^ 16 % 2 ^ 16 * 2 ^ 16 + value % 2 ^ 16
  | 4 => value % 2 ^ 32
  | _ => old

/-- The second `switch (size)` of `devmem`: the value loaded into `result`.  No
`case` matches a size other than 1, 2, 4 and `result` stays uninitialised. -/
def loadCell (size cell : Nat) : Option Nat :=
  match size with
  | 1 => some (cell % 2 ^ 8)
  | 2 => some (cell % 2 ^ 16)
  | 4 => some (cell % 2 ^ 32)
  | _ => none

/-- The register file after one logged write. -/
def storeMem (mem : Nat → Nat) (target size value : Nat) : Nat → Nat :=
  fun a => if a = target then storeCell size value (mem a) else mem a

/-- The function `devmem(target, size, write, value)`: when `write` is non-zero
the value is stored first, then the register is read and its content returned.
The `open`/`mmap`/`munmap`/`close` cycle is taken to succeed and the access goes
to the physical address `target`. -/
def devmem (target size write value : Nat) (s : Hw) : Option (Nat × Hw) :=
  let s1 : Hw :=
    if write ≠ 0 ∧ (size = 1 ∨ size = 2 ∨ size = 4) then
      { mem := storeMem s.mem target size value,
        log := s.log ++ [Access.write target size value] }
    else s
  match loadCell size (s1.mem target) with
  | none => none
  | some result =>
      some (result, { mem := s1.mem, log := s1.log ++ [Access.read target size result] })

/-! ## Integer operations of C -/

/-- The expression `a << n` on `int`: defined when `n` is below the width and the
result is representable. -/
def cshl (a n : Nat) : Option Nat :=
  if n < 32 ∧ a <<< n < 2 ^ 31 then some (a <<< n) else none

/-- The expression `40000000 / ((1 << divider) * freq)`: the product is formed in
`uint32_t` (it wraps modulo `2^32`) and the division is unsigned. -/
def fastDuration (divider freq : Nat) : Option Nat :=
  match cshl 1 divider with
  | none => none
  | some p =>
      let q := (p * freq) % 2 ^ 32
      if q = 0 then none else some (40000000 / q)

/-! ## Clock and divider selection (lines 133-154 of `pwm`) -/

/-- The `while ((divider < 0b111) && (duration > 15000))` loop.  The first
argument bounds the number of evaluations of the loop condition; the result is
the pair `(divider, duration)` at loop exit. -/
def dividerLoop : Nat → Nat → Nat → Nat → Option (Nat × Nat)
  | 0, _, _, _ => none
  | fuel + 1, freq, divider, duration =>
      if divider < 7 ∧ duration > 15000 then
        let divider1 := (divider + 1) % 2 ^ 8
        match fastDuration divider1 freq with
        | none => none
        | some duration1 => dividerLoop fuel freq divider1 duration1
      else some (divider, duration)

/-- The variables `fast`, `divider` and `duration` of `pwm`. -/
structure Timing where
  fast : Nat
  divider : Nat
  duration : Nat
  deriving DecidableEq

/-- The clock selection of `pwm`: the divider search on the 40 MHz clock followed
by the fallback to the 100 kHz clock. -/
def pwmTiming (freq : Nat) : Option Timing :=
  match fastDuration 0 freq with
  | none => none
  | some duration =>
      match dividerLoop 8 freq 0 duration with
      | none => none
      | some (divider, duration) =>
          if duration > 15000 then
            if freq = 0 then none
            else some { fast := 0, divider := 0, duration := 100000 / freq }
          else some { fast := 1, divider := divider, duration := duration }

/-- The value `duration * duty / 100` stored in `uint32_t duration0`: the
arithmetic is in `uint64_t`. -/
def duration0 (duration duty : Nat) : Nat :=
  (duration * duty) % 2 ^ 64 / 100 % 2 ^ 32

/-- The value `duration * (100-duty) / 100` stored in `uint32_t duration1`:
`100-duty` is an `int`, converted to `uint64_t` for the product. -/
def duration1 (duration duty : Nat) : Nat :=
  (duration * Int.toNat ((100 - (duty : Int)) % 2 ^ 64)) % 2 ^ 64 / 100 % 2 ^ 32

/-- The control word `0x0200 | 0x800 | (fast?8:0) | divider`. -/
def controlWord (fast divider : Nat) : Nat :=
  0x0200 ||| 0x800 ||| (if fast ≠ 0 then 8 else 0) ||| divider

/-! ## The register-programming routine -/

/-- The seven configuration writes of `pwm` (lines 164-170). -/
def pwmConfig (reg_offset : Nat) (t : Timing) (duty : Nat) (s : Hw) : Option Hw :=
  (devmem ((PWM0_CON + reg_offset) % 2 ^ 32) 4 1 (controlWord t.fast t.divider) s).bind fun r =>
  (devmem ((PWM0_HDURATION + reg_offset) % 2 ^ 32) 4 4 (duration0 t.duration duty) r.2).bind fun r =>
  (devmem ((PWM0_LDURATION + reg_offset) % 2 ^ 32) 4 4 (duration1 t.duration duty) r.2).bind fun r =>
  (devmem ((PWM0_GDURATION + reg_offset) % 2 ^ 32) 4 4 0 r.2).bind fun r =>
  (devmem ((PWM0_SEND_DATA0 + reg_offset) % 2 ^ 32) 4 1 0xAAAAAAAA r.2).bind fun r =>
  (devmem ((PWM0_SEND_DATA1 + reg_offset) % 2 ^ 32) 4 1 0xAAAAAAAA r.2).bind fun r =>
  (devmem ((PWM0_WAVE_NUM + reg_offset) % 2 ^ 32) 4 1 0 r.2).bind fun r =>
  some r.2

/-- The special cases for 0 % and 100 % duty (lines 173-184). -/
def pwmDutyEdge (reg_offset duty : Nat) (s : Hw) : Option Hw :=
  if duty = 0 then
    (devmem ((PWM0_SEND_DATA0 + reg_offset) % 2 ^ 32) 4 1 0x00000000 s).bind fun r =>
    (devmem ((PWM0_SEND_DATA1 + reg_offset) % 2 ^ 32) 4 1 0x00000000 r.2).bind fun r =>
    some r.2
  else if duty = 100 then
    (devmem ((PWM0_SEND_DATA0 + reg_offset) % 2 ^ 32) 4 1 0xFFFFFFFF s).bind fun r =>
    (devmem ((PWM0_SEND_DATA1 + reg_offset) % 2 ^ 32) 4 1 0xFFFFFFFF r.2).bind fun r =>
    some r.2
  else some s

/-- The function `pwm(channel, freq, duty)`. -/
def pwm (channel freq duty : Nat) (s : Hw) : Option Hw :=
  (devmem PWM_ENABLE 4 0 0 s).bind fun r0 =>
  (cshl 1 channel).bind fun bit =>
  let enable := r0.1 &&& (0xFFFFFFFF ^^^ (bit % 2 ^ 32))
  (devmem PWM_ENABLE 4 1 enable r0.2).bind fun r1 =>
  if freq = 0 then some r1.2
  else
    let reg_offset := (0x40 * channel) % 2 ^ 32
    (pwmTiming freq).bind fun t =>
    (pwmConfig reg_offset t duty r1.2).bind fun s2 =>
    (pwmDutyEdge reg_offset duty s2).bind fun s3 =>
    (devmem PWM_ENABLE 4 1 ((enable ||| bit) % 2 ^ 32) s3).bind fun r2 =>
    some r2.2

/-! ## Reading the access log -/

/-- The writes of a log, in order, as (address, size, value). -/
def writesOf : List Access → List (Nat × Nat × Nat)
  | [] => []
  | Access.write a sz v :: l => (a, sz, v) :: writesOf l
  | Access.read _ _ _ :: l => writesOf l

/-- The register file obtained by performing a list of writes in order. -/
def applyWrites (mem : Nat → Nat) : List (Nat × Nat × Nat) → Nat → Nat
  | [] => mem
  | (a, sz, v) :: l => applyWrites (storeMem mem a sz v) l

/-- The log entries left by a sequence of `devmem` writes: each store is followed
by the read-back of the register that `devmem` always performs. -/
def writeEvents : List (Nat × Nat × Nat) → List Access
  | [] => []
  | (a, sz, v) :: l =>
      Access.write a sz v :: Access.read a sz (v % 2 ^ (8 * sz)) :: writeEvents l

/-- The stores issued by `pwmConfig`, as (address, size, value); `pwmConfig_eq`
relates the list to the code. -/
def configWrites (off : Nat) (t : Timing) (duty : Nat) : List (Nat × Nat × Nat) :=
  [((PWM0_CON + off) % 2 ^ 32, 4, controlWord t.fast t.divider),
   ((PWM0_HDURATION + off) % 2 ^ 32, 4, duration0 t.duration duty),
   ((PWM0_LDURATION + off) % 2 ^ 32, 4, duration1 t.duration duty),
   ((PWM0_GDURATION + off) % 2 ^ 32, 4, 0),
   ((PWM0_SEND_DATA0 + off) % 2 ^ 32, 4, 0xAAAAAAAA),
   ((PWM0_SEND_DATA1 + off) % 2 ^ 32, 4, 0xAAAAAAAA),
   ((PWM0_WAVE_NUM + off) % 2 ^ 32, 4, 0)]

/-- The stores issued by `pwmDutyEdge`, as (address, size, value);
`pwmDutyEdge_eq` relates the list to the code. -/
def dutyEdgeWrites (off duty : Nat) : List (Nat × Nat × Nat) :=
  if duty = 0 then
    [((PWM0_SEND_DATA0 + off) % 2 ^ 32, 4, 0), ((PWM0_SEND_DATA1 + off) % 2 ^ 32, 4, 0)]
  else if duty = 100 then
    [((PWM0_SEND_DATA0 + off) % 2 ^ 32, 4, 0xFFFFFFFF),
     ((PWM0_SEND_DATA1 + off) % 2 ^ 32, 4, 0xFFFFFFFF)]
  else []

/-- The register address of an access. -/
def Access.addr : Access → Nat
  | Access.read a _ _ => a
  | Access.write a _ _ => a

/-- Whether an access is a store to a register other than `addr`. -/
def isOtherWrite (addr : Nat) : Access → Bool
  | Access.write a _ _ => decide (a ≠ addr)
  | Access.read _ _ _ => false

/-- The accesses of a log that come after its last store to a register other
than `addr`; for `addr = PWM_ENABLE` and a log of `pwm`, the accesses after the
last configuration write. -/
def afterLastOtherWrite (addr : Nat) : List Access → List Access
  | [] => []
  | e :: l =>
      if l.any (isOtherWrite addr) then afterLastOtherWrite addr l
      else if isOtherWrite addr e then l
      else e :: l

/-- A start state: every register holds `v` and nothing was accessed yet. -/
def Hw.const (v : Nat) : Hw := { mem := fun _ => v, log := [] }


/-! ## The clock selection under checked arithmetic -/

/-- The expression `40000000 / ((1 << divider) * freq)` under checked arithmetic:
the result is `none` when the divisor is zero and also when the product
`(1 << divider) * freq` does not fit in `uint32_t`. -/
def fastDurationChecked (divider freq : Nat) : Option Nat :=
  match cshl 1 divider with
  | none => none
  | some p =>
      if p * freq = 0 ∨ 2 ^ 32 ≤ p * freq then none else some (40000000 / (p * freq))

/-- The loop of `dividerLoop` under checked arithmetic. -/
def dividerLoopChecked : Nat → Nat → Nat → Nat → Option (Nat × Nat)
  | 0, _, _, _ => none
  | fuel + 1, freq, divider, duration =>
      if divider < 7 ∧ duration > 15000 then
        let divider1 := (divider + 1) % 2 ^ 8
        match fastDurationChecked divider1 freq with
        | none => none
        | some duration1 => dividerLoopChecked fuel freq divider1 duration1
      else some (divider, duration)

/-- The clock selection of `pwmTiming` under checked arithmetic. -/
def pwmTimingChecked (freq : Nat) : Option Timing :=
  match fastDurationChecked 0 freq with
  | none => none
  | some duration =>
      match dividerLoopChecked 8 freq 0 duration with
      | none => none
      | some (divider, duration) =>
          if duration > 15000 then
            if freq = 0 then none
            else some { fast := 0, divider := 0, duration := 100000 / freq }
          else some { fast := 1, divider := divider, duration := duration }

/-! ## The mapping arithmetic of `devmem` (lines 48-57 and 65-67)

`pagesize` is the value of `(unsigned)getpagesize()`; all quantities are
`uint32_t`. -/

theorem devmem_read4 (a v : Nat) (s : Hw) :
    devmem a 4 0 v s =
      some (s.mem a % 2 ^ 32,
        { mem := s.mem, log := s.log ++ [Access.read a 4 (s.mem a % 2 ^ 32)] }) := by
  simp [devmem, loadCell]

theorem devmem_write4 (a w v : Nat) (s : Hw) (hw : w ≠ 0) :
    devmem a 4 w v s =
      some (v % 2 ^ 32,
        { mem := storeMem s.mem a 4 v,
          log := s.log ++ [Access.write a 4 v, Access.read a 4 (v % 2 ^ 32)] }) := by
  simp [devmem, loadCell, storeMem, storeCell, hw]

theorem writesOf_append (l1 l2 : List Access) :
    writesOf (l1 ++ l2) = writesOf l1 ++ writesOf l2 := by
  induction l1 with
  | nil => rfl
  | cons e l ih => cases e <;> simp [writesOf, ih]

/-! ## Auxiliary facts: the divider search -/

theorem cshl_one (n : Nat) (h : n < 31) : cshl 1 n = some (2 ^ n) := by
  have h1 : (2 : Nat) ^ n < 2 ^ 31 := Nat.pow_lt_pow_right (by decide) h
  simp [cshl, Nat.one_shiftLeft, h1]
  omega

theorem fastDuration_eq (d freq : Nat) (hd : d ≤ 7) (hf : 0 < freq)
    (hq : 2 ^ d * freq < 2 ^ 32) :
    fastDuration d freq = some (40000000 / (2 ^ d * freq)) := by
  have hp : 0 < 2 ^ d * freq := Nat.mul_pos (Nat.pow_pos (by decide)) hf
  rw [fastDuration, cshl_one d (by omega)]
  simp only [Nat.mod_eq_of_lt hq]
  rw [if_neg (by omega)]

theorem over_limit_bound (q : Nat) (hq : 0 < q) (h : 15000 < 40000000 / q) : q ≤ 2666 := by
  have h1 : 15001 * q ≤ 40000000 := (Nat.le_div_iff_mul_le hq).1 h
  omega

theorem dividerLoop_spec (freq : Nat) (hf : 0 < freq) :
    ∀ fuel d, d ≤ 7 → 7 - d < fuel → 2 ^ d * freq < 2 ^ 32 →
      ∃ d1, dividerLoop fuel freq d (40000000 / (2 ^ d * freq))
            = some (d1, 40000000 / (2 ^ d1 * freq)) ∧
        d ≤ d1 ∧ d1 ≤ 7 ∧
        (∀ k, d ≤ k → k < d1 → 15000 < 40000000 / (2 ^ k * freq)) ∧
        (15000 < 40000000 / (2 ^ d1 * freq) → d1 = 7) := by
  intro fuel
  induction fuel with
  | zero => intro d _ h; omega
  | succ n ih =>
    intro d hd hfuel hq
    have hp : 0 < 2 ^ d * freq := Nat.mul_pos (Nat.pow_pos (by decide)) hf
    by_cases hc : d < 7 ∧ 40000000 / (2 ^ d * freq) > 15000
    · have hb := over_limit_bound _ hp hc.2
      have hq1 : 2 ^ (d + 1) * freq < 2 ^ 32 := by
        have e : 2 ^ (d + 1) * freq = 2 * (2 ^ d * freq) := by ring
        omega
      obtain ⟨d1, h1, h2, h3, h4, h5⟩ := ih (d + 1) (by omega) (by omega) hq1
      refine ⟨d1, ?_, by omega, h3, ?_, h5⟩
      · rw [dividerLoop, if_pos hc]
        have hm : (d + 1) % 2 ^ 8 = d + 1 := Nat.mod_eq_of_lt (by omega)
        simp only [hm, fastDuration_eq (d + 1) freq (by omega) hf hq1]
        exact h1
      · intro k hk1 hk2
        by_cases hkd : k = d
        · subst hkd; exact hc.2
        · exact h4 k (by omega) hk2
    · refine ⟨d, ?_, le_refl _, hd, ?_, ?_⟩
      · rw [dividerLoop, if_neg hc]
      · intro k hk1 hk2; omega
      · intro h; omega

theorem fast_antitone (freq k j : Nat) (hf : 0 < freq) (hkj : k ≤ j) :
    40000000 / (2 ^ j * freq) ≤ 40000000 / (2 ^ k * freq) := by
  apply Nat.div_le_div_left
  · exact Nat.mul_le_mul_right freq (Nat.pow_le_pow_right (by decide) hkj)
  · exact Nat.mul_pos (Nat.pow_pos (by decide)) hf

theorem slow_le_fast (freq d : Nat) (hf : 0 < freq) (hd : d ≤ 7) :
    100000 / freq ≤ 40000000 / (2 ^ d * freq) := by
  have hp : 0 < 2 ^ d * freq := Nat.mul_pos (Nat.pow_pos (by decide)) hf
  rw [Nat.le_div_iff_mul_le hp]
  have h1 : 100000 / freq * freq ≤ 100000 := Nat.div_mul_le_self _ _
  have h2 : (2 : Nat) ^ d ≤ 2 ^ 7 := Nat.pow_le_pow_right (by decide) hd
  calc 100000 / freq * (2 ^ d * freq) = 2 ^ d * (100000 / freq * freq) := by ring
    _ ≤ 2 ^ 7 * 100000 := Nat.mul_le_mul h2 h1
    _ ≤ 40000000 := by norm_num

theorem pwmTiming_spec (freq : Nat) (hf : 0 < freq) (h32 : freq < 2 ^ 32) :
    ∃ d, d ≤ 7 ∧
      (∀ k, k < d → 15000 < 40000000 / (2 ^ k * freq)) ∧
      (15000 < 40000000 / (2 ^ d * freq) → d = 7) ∧
      pwmTiming freq =
        some (if 15000 < 40000000 / (2 ^ d * freq) then
                { fast := 0, divider := 0, duration := 100000 / freq }
              else { fast := 1, divider := d, duration := 40000000 / (2 ^ d * freq) }) := by
  have hq0 : 2 ^ 0 * freq < 2 ^ 32 := by omega
  obtain ⟨d, h1, _, h3, h4, h5⟩ := dividerLoop_spec freq hf 8 0 (by omega) (by omega) hq0
  refine ⟨d, h3, fun k hk => h4 k (Nat.zero_le k) hk, h5, ?_⟩
  rw [pwmTiming, fastDuration_eq 0 freq (by omega) hf hq0]
  simp only [h1]
  have hne : freq ≠ 0 := by omega
  by_cases hc : 15000 < 40000000 / (2 ^ d * freq)
  · simp [hc, hne]
  · simp [hc]

/-! ## Auxiliary facts: the write sequence of `pwm` -/

theorem writesOf_writeEvents (w : List (Nat × Nat × Nat)) : writesOf (writeEvents w) = w := by
  induction w with
  | nil => rfl
  | cons x l ih =>
    obtain ⟨a, sz, v⟩ := x
    simp [writeEvents, writesOf, ih]

theorem writeEvents_append (w1 w2 : List (Nat × Nat × Nat)) :
    writeEvents (w1 ++ w2) = writeEvents w1 ++ writeEvents w2 := by
  induction w1 with
  | nil => rfl
  | cons x l ih =>
    obtain ⟨a, sz, v⟩ := x
    simp [writeEvents, ih]

theorem writeEvents_enclosed (a v b u : Nat) (mid : List (Nat × Nat × Nat))
    (hv : v < 2 ^ 32) (hu : u < 2 ^ 32) :
    writeEvents ((a, 4, v) :: (mid ++ [(b, 4, u)])) =
      [Access.write a 4 v, Access.read a 4 v] ++ writeEvents mid ++
        [Access.write b 4 u, Access.read b 4 u] := by
  have e1 : v % 2 ^ (8 * 4) = v := Nat.mod_eq_of_lt hv
  have e2 : u % 2 ^ (8 * 4) = u := Nat.mod_eq_of_lt hu
  simp only [writeEvents, writeEvents_append, e1, e2, List.cons_append, List.nil_append]

theorem applyWrites_append (mem : Nat → Nat) (w1 w2 : List (Nat × Nat × Nat)) :
    applyWrites mem (w1 ++ w2) = applyWrites (applyWrites mem w1) w2 := by
  induction w1 generalizing mem with
  | nil => rfl
  | cons x l ih =>
    obtain ⟨a, sz, v⟩ := x
    simp [applyWrites, ih]

theorem pwmConfig_eq (off : Nat) (t : Timing) (duty : Nat) (s : Hw) :
    pwmConfig off t duty s = some
      { mem := applyWrites s.mem (configWrites off t duty),
        log := s.log ++ writeEvents (configWrites off t duty) } := by
  simp [pwmConfig, configWrites, devmem_write4, applyWrites, writeEvents]

theorem pwmDutyEdge_eq (off duty : Nat) (s : Hw) :
    pwmDutyEdge off duty s = some
      { mem := applyWrites s.mem (dutyEdgeWrites off duty),
        log := s.log ++ writeEvents (dutyEdgeWrites off duty) } := by
  unfold pwmDutyEdge dutyEdgeWrites
  split
  · simp [devmem_write4, applyWrites, writeEvents]
  · split
    · simp [devmem_write4, applyWrites, writeEvents]
    · simp [applyWrites, writeEvents]

/-- The run of `pwm` with a zero frequency: one read and one write-back of the
enable register. -/
theorem pwm_off_run (channel duty : Nat) (s : Hw) (hc : channel < 31) :
    pwm channel 0 duty s = some
      { mem := storeMem s.mem PWM_ENABLE 4
                 (s.mem PWM_ENABLE % 2 ^ 32 &&& (0xFFFFFFFF ^^^ 2 ^ channel)),
        log := s.log ++ Access.read PWM_ENABLE 4 (s.mem PWM_ENABLE % 2 ^ 32) ::
          writeEvents
            [(PWM_ENABLE, 4, s.mem PWM_ENABLE % 2 ^ 32 &&& (0xFFFFFFFF ^^^ 2 ^ channel))] } := by
  have h1 : (2 : Nat) ^ channel < 2 ^ 31 := Nat.pow_lt_pow_right (by decide) hc
  have h2 : (2 : Nat) ^ channel % 2 ^ 32 = 2 ^ channel := Nat.mod_eq_of_lt (by omega)
  simp only [pwm, devmem_read4, cshl_one channel hc, Option.bind, h2]
  rw [devmem_write4 _ _ _ _ (by decide)]
  simp [writeEvents]

/-- The run of `pwm` with a non-zero frequency: the enable-clear, the
configuration block, the duty special case and the enable-set. -/
theorem pwm_on_run (channel freq duty : Nat) (s : Hw) (t : Timing) (hc : channel < 31)
    (hf : freq ≠ 0) (ht : pwmTiming freq = some t) :
    pwm channel freq duty s = some
      { mem := applyWrites s.mem
          ((PWM_ENABLE, 4, s.mem PWM_ENABLE % 2 ^ 32 &&& (0xFFFFFFFF ^^^ 2 ^ channel)) ::
            (configWrites (0x40 * channel % 2 ^ 32) t duty ++
              dutyEdgeWrites (0x40 * channel % 2 ^ 32) duty ++
              [(PWM_ENABLE, 4,
                ((s.mem PWM_ENABLE % 2 ^ 32 &&& (0xFFFFFFFF ^^^ 2 ^ channel)) ||| 2 ^ channel)
                  % 2 ^ 32)])),
        log := s.log ++ Access.read PWM_ENABLE 4 (s.mem PWM_ENABLE % 2 ^ 32) ::
          writeEvents
          ((PWM_ENABLE, 4, s.mem PWM_ENABLE % 2 ^ 32 &&& (0xFFFFFFFF ^^^ 2 ^ channel)) ::
            (configWrites (0x40 * channel % 2 ^ 32) t duty ++
              dutyEdgeWrites (0x40 * channel % 2 ^ 32) duty ++
              [(PWM_ENABLE, 4,
                ((s.mem PWM_ENABLE % 2 ^ 32 &&& (0xFFFFFFFF ^^^ 2 ^ channel)) ||| 2 ^ channel)
                  % 2 ^ 32)])) } := by
  have h1 : (2 : Nat) ^ channel < 2 ^ 31 := Nat.pow_lt_pow_right (by decide) hc
  have h2 : (2 : Nat) ^ channel % 2 ^ 32 = 2 ^ channel := Nat.mod_eq_of_lt (by omega)
  simp only [pwm, devmem_read4, cshl_one channel hc, Option.bind, h2, if_neg hf, ht,
    pwmConfig_eq, pwmDutyEdge_eq]
  rw [devmem_write4 _ _ _ _ (by decide)]
  simp only []
  rw [devmem_write4 _ _ _ _ (by decide)]
  simp [writeEvents, writeEvents_append, applyWrites, applyWrites_append]

/-- The register addresses of a channel's block do not wrap. -/
theorem reg_addr (base channel : Nat) (hb : base < 2 ^ 31) (hc : channel ≤ 3) :
    (base + 0x40 * channel % 2 ^ 32) % 2 ^ 32 = base + 0x40 * channel := by
  omega

theorem configWrites_channel (channel : Nat) (t : Timing) (duty : Nat) (hc : channel ≤ 3) :
    configWrites (0x40 * channel % 2 ^ 32) t duty =
      [(0x10005010 + 0x40 * channel, 4, controlWord t.fast t.divider),
       (0x10005014 + 0x40 * channel, 4, duration0 t.duration duty),
       (0x10005018 + 0x40 * channel, 4, duration1 t.duration duty),
       (0x1000501C + 0x40 * channel, 4, 0),
       (0x10005030 + 0x40 * channel, 4, 0xAAAAAAAA),
       (0x10005034 + 0x40 * channel, 4, 0xAAAAAAAA),
       (0x10005038 + 0x40 * channel, 4, 0)] := by
  simp only [configWrites, PWM0_CON, PWM0_HDURATION, PWM0_LDURATION, PWM0_GDURATION,
    PWM0_SEND_DATA0, PWM0_SEND_DATA1, PWM0_WAVE_NUM]
  rw [reg_addr _ channel (by decide) hc, reg_addr _ channel (by decide) hc,
    reg_addr _ channel (by decide) hc, reg_addr _ channel (by decide) hc,
    reg_addr _ channel (by decide) hc, reg_addr _ channel (by decide) hc,
    reg_addr _ channel (by decide) hc]

theorem dutyEdgeWrites_channel (channel duty : Nat) (hc : channel ≤ 3) :
    dutyEdgeWrites (0x40 * channel % 2 ^ 32) duty =
      if duty = 0 then
        [(0x10005030 + 0x40 * channel, 4, 0), (0x10005034 + 0x40 * channel, 4, 0)]
      else if duty = 100 then
        [(0x10005030 + 0x40 * channel, 4, 0xFFFFFFFF),
         (0x10005034 + 0x40 * channel, 4, 0xFFFFFFFF)]
      else [] := by
  simp only [dutyEdgeWrites, PWM0_SEND_DATA0, PWM0_SEND_DATA1]
  rw [reg_addr _ channel (by decide) hc, reg_addr _ channel (by decide) hc]

/-- The run of `pwm` for a channel in [0,3] and a non-zero frequency, with the
register addresses resolved. -/
theorem pwm_channel_run (channel freq duty : Nat) (s : Hw) (t : Timing) (hc : channel ≤ 3)
    (hf : freq ≠ 0) (ht : pwmTiming freq = some t) :
    ∃ s1 w, pwm channel freq duty s = some s1 ∧
      w = (0x10005000, 4, s.mem 0x10005000 % 2 ^ 32 &&& (0xFFFFFFFF ^^^ 2 ^ channel)) ::
            (configWrites (0x40 * channel % 2 ^ 32) t duty ++
              dutyEdgeWrites (0x40 * channel % 2 ^ 32) duty ++
              [(0x10005000, 4,
                ((s.mem 0x10005000 % 2 ^ 32 &&& (0xFFFFFFFF ^^^ 2 ^ channel)) ||| 2 ^ channel)
                  % 2 ^ 32)]) ∧
      s1.mem = applyWrites s.mem w ∧
      s1.log = s.log ++ Access.read 0x10005000 4 (s.mem 0x10005000 % 2 ^ 32) :: writeEvents w ∧
      s1.log.drop s.log.length =
        Access.read 0x10005000 4 (s.mem 0x10005000 % 2 ^ 32) :: writeEvents w ∧
      writesOf (s1.log.drop s.log.length) = w := by
  refine ⟨_, _, pwm_on_run channel freq duty s t (by omega) hf ht, rfl, rfl, rfl, ?_, ?_⟩
  · exact List.drop_left _ _
  · show writesOf (List.drop s.log.length (s.log ++ _)) = _
    rw [List.drop_left]
    simp only [writesOf, writesOf_writeEvents]
    rfl

theorem applyWrites_untouched (l : List (Nat × Nat × Nat)) (a : Nat) :
    ∀ mem : Nat → Nat, (∀ x ∈ l, x.1 ≠ a) → applyWrites mem l a = mem a := by
  induction l with
  | nil => intro mem _; rfl
  | cons x l ih =>
    intro mem h
    obtain ⟨b, sz, v⟩ := x
    have hb : b ≠ a := h (b, sz, v) (List.mem_cons_self _ _)
    have hb2 : ¬ a = b := fun e => hb e.symm
    rw [applyWrites, ih _ (fun y hy => h y (List.mem_cons_of_mem _ hy))]
    simp [storeMem, hb2]

theorem writeEvents_addr (l : List (Nat × Nat × Nat)) :
    ∀ e ∈ writeEvents l, ∃ x ∈ l, e.addr = x.1 := by
  induction l with
  | nil => intro e he; simp [writeEvents] at he
  | cons x l ih =>
    obtain ⟨b, sz, v⟩ := x
    intro e he
    simp only [writeEvents, List.mem_cons] at he
    rcases he with rfl | rfl | he
    · exact ⟨(b, sz, v), List.mem_cons_self _ _, rfl⟩
    · exact ⟨(b, sz, v), List.mem_cons_self _ _, rfl⟩
    · obtain ⟨y, hy, e1⟩ := ih e he
      exact ⟨y, List.mem_cons_of_mem _ hy, e1⟩

/-- The addresses stored to between the enable-clear and the enable-set are the
seven configuration registers of the channel. -/
theorem channel_writes_addr (channel duty : Nat) (t : Timing) (hc : channel ≤ 3) :
    ∀ x ∈ configWrites (0x40 * channel % 2 ^ 32) t duty ++
        dutyEdgeWrites (0x40 * channel % 2 ^ 32) duty,
      x.1 ∈ [0x10005010 + 0x40 * channel, 0x10005014 + 0x40 * channel,
        0x10005018 + 0x40 * channel, 0x1000501C + 0x40 * channel,
        0x10005030 + 0x40 * channel, 0x10005034 + 0x40 * channel,
        0x10005038 + 0x40 * channel] := by
  intro x hx
  rw [configWrites_channel channel t duty hc, dutyEdgeWrites_channel channel duty hc] at hx
  rcases List.mem_append.1 hx with h | h
  · simp only [List.mem_cons, List.mem_singleton, List.not_mem_nil, or_false] at h
    rcases h with rfl | rfl | rfl | rfl | rfl | rfl | rfl <;> simp
  · split at h
    · simp only [List.mem_cons, List.mem_singleton, List.not_mem_nil, or_false] at h
      rcases h with rfl | rfl <;> simp
    · split at h
      · simp only [List.mem_cons, List.mem_singleton, List.not_mem_nil, or_false] at h
        rcases h with rfl | rfl <;> simp
      · simp at h

theorem channel_writes_not_enable (channel duty : Nat) (t : Timing) (hc : channel ≤ 3) :
    ∀ x ∈ configWrites (0x40 * channel % 2 ^ 32) t duty ++
        dutyEdgeWrites (0x40 * channel % 2 ^ 32) duty,
      x.1 ≠ 0x10005000 := by
  intro x hx
  have h := channel_writes_addr channel duty t hc x hx
  simp only [List.mem_cons, List.mem_singleton, List.not_mem_nil, or_false] at h
  omega

/-! ## Auxiliary facts: the enable bit -/

theorem testBit_clear (v ch i : Nat) (hc : ch < 32) :
    (v % 2 ^ 32 &&& (0xFFFFFFFF ^^^ 2 ^ ch)).testBit i =
      ((v % 2 ^ 32).testBit i && !decide (i = ch)) := by
  have e : (0xFFFFFFFF : Nat) = 2 ^ 32 - 1 := by norm_num
  rw [e, Nat.testBit_and, Nat.testBit_xor, Nat.testBit_two_pow_sub_one, Nat.testBit_two_pow,
    Nat.testBit_mod_two_pow]
  by_cases h1 : i < 32 <;> by_cases h2 : ch = i
  · subst h2; simp [h1]
  · have h3 : ¬ i = ch := fun h => h2 h.symm
    simp [h1, h2, h3]
  · omega
  · simp [h1]

theorem testBit_set (w ch i : Nat) (hw : w < 2 ^ 32) (hc : ch < 32) :
    ((w ||| 2 ^ ch) % 2 ^ 32).testBit i = (w.testBit i || decide (i = ch)) := by
  rw [Nat.testBit_mod_two_pow, Nat.testBit_or, Nat.testBit_two_pow]
  by_cases h1 : i < 32 <;> by_cases h2 : ch = i
  · subst h2; simp [h1]
  · have h3 : ¬ i = ch := fun h => h2 h.symm
    simp [h1, h2, h3]
  · omega
  · have h3 : ¬ i = ch := fun h => h2 h.symm
    have h4 : w.testBit i = false :=
      Nat.testBit_lt_two_pow (lt_of_lt_of_le hw (Nat.pow_le_pow_right (by decide) (by omega)))
    simp [h1, h3, h4]

theorem clear_lt (v ch : Nat) : v % 2 ^ 32 &&& (0xFFFFFFFF ^^^ 2 ^ ch) < 2 ^ 32 :=
  lt_of_le_of_lt Nat.and_le_left (Nat.mod_lt _ (by decide))

theorem pwmTiming_some (freq : Nat) (hf : 0 < freq) (h32 : freq < 2 ^ 32) :
    ∃ t, pwmTiming freq = some t := by
  obtain ⟨d, _, _, _, hsel⟩ := pwmTiming_spec freq hf h32
  exact ⟨_, hsel⟩

/-! ## Auxiliary facts: the duty split -/

theorem pwmTiming_duration_le (freq : Nat) (t : Timing) (hf : 0 < freq) (h32 : freq < 2 ^ 32)
    (ht : pwmTiming freq = some t) : t.duration ≤ 100000 := by
  obtain ⟨d, _, _, _, hsel⟩ := pwmTiming_spec freq hf h32
  rw [ht] at hsel
  have e := Option.some.inj hsel
  subst e
  by_cases hc : 15000 < 40000000 / (2 ^ d * freq)
  · rw [if_pos hc]
    exact Nat.div_le_self _ _
  · rw [if_neg hc]
    show 40000000 / (2 ^ d * freq) ≤ 100000
    omega

theorem duration0_eq (D duty : Nat) (hD : D ≤ 100000) (hd : duty ≤ 100) :
    duration0 D duty = D * duty / 100 := by
  have h : D * duty ≤ 100000 * 100 := Nat.mul_le_mul hD hd
  unfold duration0
  omega

theorem duration1_eq (D duty : Nat) (hD : D ≤ 100000) (hd : duty ≤ 100) :
    duration1 D duty = D * (100 - duty) / 100 := by
  have e : Int.toNat ((100 - (duty : Int)) % 2 ^ 64) = 100 - duty := by omega
  have h : D * (100 - duty) ≤ 100000 * 100 := Nat.mul_le_mul hD (by omega)
  unfold duration1
  rw [e]
  omega

theorem split_sum (D duty : Nat) (hd : duty ≤ 100) :
    D * duty / 100 + D * (100 - duty) / 100 = D ∨
      D * duty / 100 + D * (100 - duty) / 100 + 1 = D := by
  have e : D * duty + D * (100 - duty) = 100 * D := by
    rw [← Nat.mul_add, Nat.add_sub_cancel' hd, Nat.mul_comm]
  omega

/-! ## The claims -/

/-- C1: for every channel in [0,3], every duty and every initial register state,
`pwm(channel, 0, duty)` returns after exactly one register write: it reads the
global enable register (0x10005000) and writes back the value read with bit
`channel` cleared.  No other register changes and the channel's enable bit is
clear in the final state. -/
theorem pwm_zero_frequency_only_disables (channel duty : Nat) (s : Hw) (hc : channel ≤ 3) :
    ∃ s1 w,
      pwm channel 0 duty s = some s1 ∧
      s1.log = s.log ++ [Access.read 0x10005000 4 (s.mem 0x10005000 % 2 ^ 32),
        Access.write 0x10005000 4 w, Access.read 0x10005000 4 w] ∧
      writesOf (s1.log.drop s.log.length) = [(0x10005000, 4, w)] ∧
      (∀ i, w.testBit i = ((s.mem 0x10005000 % 2 ^ 32).testBit i && !decide (i = channel))) ∧
      s1.mem 0x10005000 = w ∧
      (s1.mem 0x10005000).testBit channel = false ∧
      (∀ a, a ≠ 0x10005000 → s1.mem a = s.mem a) := by
  have hlt := clear_lt (s.mem PWM_ENABLE) channel
  have hbit := fun i => testBit_clear (s.mem PWM_ENABLE) channel i (by omega)
  refine ⟨_, s.mem PWM_ENABLE % 2 ^ 32 &&& (0xFFFFFFFF ^^^ 2 ^ channel),
    pwm_off_run channel duty s (by omega), ?_, ?_, ?_, ?_, ?_, ?_⟩
  · simp [writeEvents, PWM_ENABLE] at hlt ⊢
    exact hlt
  · simp [writeEvents, writesOf, PWM_ENABLE]
  · exact hbit
  · simp [storeMem, storeCell, PWM_ENABLE] at hlt ⊢
    exact hlt
  · simp only [storeMem, storeCell, PWM_ENABLE] at hlt hbit ⊢
    simp only [if_true, Nat.mod_eq_of_lt hlt, hbit]
    simp
  · intro a ha
    simp [storeMem, PWM_ENABLE, ha]

/-- Witness of C1 for channel 2 with all four enable bits initially set. -/
theorem pwm_zero_frequency_only_disables_witness :
    ∃ s1 w,
      pwm 2 0 50 (Hw.const 15) = some s1 ∧
      s1.log = (Hw.const 15).log ++
        [Access.read 0x10005000 4 ((Hw.const 15).mem 0x10005000 % 2 ^ 32),
        Access.write 0x10005000 4 w, Access.read 0x10005000 4 w] ∧
      writesOf (s1.log.drop (Hw.const 15).log.length) = [(0x10005000, 4, w)] ∧
      (∀ i, w.testBit i =
        (((Hw.const 15).mem 0x10005000 % 2 ^ 32).testBit i && !decide (i = 2))) ∧
      s1.mem 0x10005000 = w ∧
      (s1.mem 0x10005000).testBit 2 = false ∧
      (∀ a, a ≠ 0x10005000 → s1.mem a = (Hw.const 15).mem a) :=
  pwm_zero_frequency_only_disables 2 50 (Hw.const 15) (by decide)

/-- C2: for every 32-bit frequency > 0 for which some candidate pair (fast clock
with a divider in [0,7], or slow clock with divider 0) gives a period duration of
at most 15000, the clock selection of `pwm` returns a (clock mode, divider,
duration) whose duration is at most 15000. -/
theorem pwm_selection_within_limit_when_possible (freq : Nat) (hf : 0 < freq)
    (h32 : freq < 2 ^ 32)
    (hex : (∃ d, d ≤ 7 ∧ 40000000 / (2 ^ d * freq) ≤ 15000) ∨ 100000 / freq ≤ 15000) :
    ∃ t, pwmTiming freq = some t ∧ t.duration ≤ 15000 := by
  obtain ⟨d, hd, _, hlast, hsel⟩ := pwmTiming_spec freq hf h32
  refine ⟨_, hsel, ?_⟩
  by_cases hc : 15000 < 40000000 / (2 ^ d * freq)
  · rw [if_pos hc]
    have h7 : d = 7 := hlast hc
    subst h7
    rcases hex with ⟨k, hk, hle⟩ | hslow
    · have := fast_antitone freq k 7 hf hk
      omega
    · exact hslow
  · rw [if_neg hc]
    exact Nat.le_of_not_lt hc

/-- Witness of C2 at 1000 Hz, where the fast clock with divider 2 gives 10000. -/
theorem pwm_selection_within_limit_when_possible_witness :
    ∃ t, pwmTiming 1000 = some t ∧ t.duration ≤ 15000 :=
  pwm_selection_within_limit_when_possible 1000 (by decide) (by decide)
    (Or.inl ⟨2, by decide, by decide⟩)

/-- C3: for every 32-bit frequency > 0 with at least one candidate pair of
duration at most 15000, the duration selected by `pwm` is the duration of the
selected pair, is at most 15000, and is at least the duration of every candidate
(fast clock `40000000/(2^d*freq)` for d in [0,7], slow clock `100000/freq`) that
does not exceed 15000. -/
theorem pwm_selection_is_largest_candidate (freq : Nat) (hf : 0 < freq)
    (h32 : freq < 2 ^ 32)
    (hex : (∃ d, d ≤ 7 ∧ 40000000 / (2 ^ d * freq) ≤ 15000) ∨ 100000 / freq ≤ 15000) :
    ∃ t, pwmTiming freq = some t ∧
      t.divider ≤ 7 ∧
      t.duration =
        (if t.fast ≠ 0 then 40000000 / (2 ^ t.divider * freq) else 100000 / freq) ∧
      t.duration ≤ 15000 ∧
      (∀ d, d ≤ 7 → 40000000 / (2 ^ d * freq) ≤ 15000 →
        40000000 / (2 ^ d * freq) ≤ t.duration) ∧
      (100000 / freq ≤ 15000 → 100000 / freq ≤ t.duration) := by
  obtain ⟨d, hd, hsmall, hlast, hsel⟩ := pwmTiming_spec freq hf h32
  refine ⟨_, hsel, ?_⟩
  by_cases hc : 15000 < 40000000 / (2 ^ d * freq)
  · rw [if_pos hc]
    have h7 : d = 7 := hlast hc
    subst h7
    have hall : ∀ k, k ≤ 7 → 15000 < 40000000 / (2 ^ k * freq) := fun k hk =>
      lt_of_lt_of_le hc (fast_antitone freq k 7 hf hk)
    refine ⟨by simp, by simp, ?_, ?_, fun _ => le_refl _⟩
    · rcases hex with ⟨k, hk, hle⟩ | hslow
      · have := hall k hk
        omega
      · exact hslow
    · intro k hk hle
      have := hall k hk
      omega
  · rw [if_neg hc]
    refine ⟨hd, by simp, Nat.le_of_not_lt hc, ?_, fun _ => slow_le_fast freq d hf hd⟩
    intro k hk hle
    by_cases hkd : k < d
    · have := hsmall k hkd
      omega
    · exact fast_antitone freq d k hf (by omega)

/-- Witness of C3 at 21 Hz: divider 7 on the fast clock gives 14880, above the
4761 of the slow clock. -/
theorem pwm_selection_is_largest_candidate_witness :
    ∃ t, pwmTiming 21 = some t ∧
      t.divider ≤ 7 ∧
      t.duration =
        (if t.fast ≠ 0 then 40000000 / (2 ^ t.divider * 21) else 100000 / 21) ∧
      t.duration ≤ 15000 ∧
      (∀ d, d ≤ 7 → 40000000 / (2 ^ d * 21) ≤ 15000 →
        40000000 / (2 ^ d * 21) ≤ t.duration) ∧
      (100000 / 21 ≤ 15000 → 100000 / 21 ≤ t.duration) :=
  pwm_selection_is_largest_candidate 21 (by decide) (by decide) (Or.inr (by decide))

/-- C4: for every 32-bit frequency > 0 the selected divider is in [0,7]; when the
fast clock is selected with divider d, the duration is `40000000/(2^d*freq)`, it
is at most 15000 and every smaller divider gives more than 15000; the slow clock
is selected exactly when the fast clock at divider 7 still gives more than 15000,
and then the divider is 0 and the duration `100000/freq`.  At 10 Hz divider 7
gives 31250 and the slow clock is selected with duration 10000. -/
theorem pwm_divider_search_and_fallback (freq : Nat) (hf : 0 < freq) (h32 : freq < 2 ^ 32) :
    (∃ t, pwmTiming freq = some t ∧
      t.divider ≤ 7 ∧
      (t.fast ≠ 0 →
        t.duration = 40000000 / (2 ^ t.divider * freq) ∧ t.duration ≤ 15000 ∧
        ∀ d, d < t.divider → 15000 < 40000000 / (2 ^ d * freq)) ∧
      (t.fast = 0 ↔ 15000 < 40000000 / (2 ^ 7 * freq)) ∧
      (t.fast = 0 → t.divider = 0 ∧ t.duration = 100000 / freq)) ∧
    40000000 / (2 ^ 7 * 10) = 31250 ∧
    pwmTiming 10 = some { fast := 0, divider := 0, duration := 10000 } := by
  refine ⟨?_, by norm_num, by decide⟩
  obtain ⟨d, hd, hsmall, hlast, hsel⟩ := pwmTiming_spec freq hf h32
  refine ⟨_, hsel, ?_⟩
  by_cases hc : 15000 < 40000000 / (2 ^ d * freq)
  · rw [if_pos hc]
    have h7 : d = 7 := hlast hc
    subst h7
    exact ⟨Nat.zero_le _, fun h => absurd rfl h, ⟨fun _ => hc, fun _ => rfl⟩,
      fun _ => ⟨rfl, rfl⟩⟩
  · rw [if_neg hc]
    have h7 : ¬ 15000 < 40000000 / (2 ^ 7 * freq) := fun h =>
      hc (lt_of_lt_of_le h (fast_antitone freq d 7 hf hd))
    exact ⟨hd, fun _ => ⟨rfl, Nat.le_of_not_lt hc, hsmall⟩,
      ⟨fun h => absurd h Nat.one_ne_zero, fun h => absurd h h7⟩,
      fun h => absurd h Nat.one_ne_zero⟩

/-- Witness of C4 at 1000 Hz (fast clock, divider 2). -/
theorem pwm_divider_search_and_fallback_witness :
    (∃ t, pwmTiming 1000 = some t ∧
      t.divider ≤ 7 ∧
      (t.fast ≠ 0 →
        t.duration = 40000000 / (2 ^ t.divider * 1000) ∧ t.duration ≤ 15000 ∧
        ∀ d, d < t.divider → 15000 < 40000000 / (2 ^ d * 1000)) ∧
      (t.fast = 0 ↔ 15000 < 40000000 / (2 ^ 7 * 1000)) ∧
      (t.fast = 0 → t.divider = 0 ∧ t.duration = 100000 / 1000)) ∧
    40000000 / (2 ^ 7 * 10) = 31250 ∧
    pwmTiming 10 = some { fast := 0, divider := 0, duration := 10000 } :=
  pwm_divider_search_and_fallback 1000 (by decide) (by decide)

/-- C5 (the code departs from the claim at 1 to 6 Hz): at 1 Hz the slow clock
is selected with a period duration of 100000 ticks, above the maximum of 15000
that the divider search enforces on the fast clock, and `pwm(0, 1, 50)` stores
50000 in the high- and in the low-duration register; at 6 Hz the duration is
16666 and at 7 Hz it is 14285. -/
theorem pwm_slow_clock_duration_over_limit :
    pwmTiming 1 = some { fast := 0, divider := 0, duration := 100000 } ∧
    15000 < 100000 ∧
    (pwm 0 1 50 (Hw.const 0)).map (fun s1 => (s1.mem 0x10005014, s1.mem 0x10005018))
      = some (50000, 50000) ∧
    pwmTiming 6 = some { fast := 0, divider := 0, duration := 16666 } ∧
    pwmTiming 7 = some { fast := 0, divider := 0, duration := 14285 } := by
  refine ⟨by decide, by decide, ?_, by decide, by decide⟩
  rw [pwm_on_run 0 1 50 (Hw.const 0) { fast := 0, divider := 0, duration := 100000 }
    (by decide) (by decide) (by decide)]
  simp [applyWrites, storeMem, storeCell, configWrites, dutyEdgeWrites, duration0, duration1,
    PWM_ENABLE, PWM0_CON, PWM0_HDURATION, PWM0_LDURATION, PWM0_GDURATION, PWM0_SEND_DATA0,
    PWM0_SEND_DATA1, PWM0_WAVE_NUM]

/-- C6: for every channel in [0,3] and 32-bit frequency > 0, `pwm` returns and
leaves in both send-data registers of the channel (0x10005030 and 0x10005034
plus 0x40*channel) the value 0x00000000 when duty is 0, 0xFFFFFFFF when duty is
100 and 0xAAAAAAAA when 0 < duty < 100, whatever durations were computed. -/
theorem pwm_send_data_by_duty (channel freq duty : Nat) (s : Hw) (hc : channel ≤ 3)
    (hf : 0 < freq) (h32 : freq < 2 ^ 32) :
    ∃ s1, pwm channel freq duty s = some s1 ∧
      (duty = 0 →
        s1.mem (0x10005030 + 0x40 * channel) = 0x00000000 ∧
        s1.mem (0x10005034 + 0x40 * channel) = 0x00000000) ∧
      (duty = 100 →
        s1.mem (0x10005030 + 0x40 * channel) = 0xFFFFFFFF ∧
        s1.mem (0x10005034 + 0x40 * channel) = 0xFFFFFFFF) ∧
      (0 < duty ∧ duty < 100 →
        s1.mem (0x10005030 + 0x40 * channel) = 0xAAAAAAAA ∧
        s1.mem (0x10005034 + 0x40 * channel) = 0xAAAAAAAA) := by
  obtain ⟨t, hsel⟩ := pwmTiming_some freq hf h32
  refine ⟨_, pwm_on_run channel freq duty s t (by omega) (by omega) hsel, ?_, ?_, ?_⟩
  · intro h0
    subst h0
    interval_cases channel <;>
      simp [applyWrites, storeMem, storeCell, configWrites, dutyEdgeWrites,
        PWM_ENABLE, PWM0_CON, PWM0_HDURATION, PWM0_LDURATION, PWM0_GDURATION, PWM0_SEND_DATA0,
        PWM0_SEND_DATA1, PWM0_WAVE_NUM]
  · intro h100
    subst h100
    interval_cases channel <;>
      simp [applyWrites, storeMem, storeCell, configWrites, dutyEdgeWrites,
        PWM_ENABLE, PWM0_CON, PWM0_HDURATION, PWM0_LDURATION, PWM0_GDURATION, PWM0_SEND_DATA0,
        PWM0_SEND_DATA1, PWM0_WAVE_NUM]
  · intro hmid
    have h0 : duty ≠ 0 := by omega
    have h100 : duty ≠ 100 := by omega
    interval_cases channel <;>
      simp [applyWrites, storeMem, storeCell, configWrites, dutyEdgeWrites, h0, h100,
        PWM_ENABLE, PWM0_CON, PWM0_HDURATION, PWM0_LDURATION, PWM0_GDURATION, PWM0_SEND_DATA0,
        PWM0_SEND_DATA1, PWM0_WAVE_NUM]

/-- Witness of C6 for channel 3 at 440 Hz and 100 % duty. -/
theorem pwm_send_data_by_duty_witness :
    ∃ s1, pwm 3 440 100 (Hw.const 0) = some s1 ∧
      (100 = 0 →
        s1.mem (0x10005030 + 0x40 * 3) = 0x00000000 ∧
        s1.mem (0x10005034 + 0x40 * 3) = 0x00000000) ∧
      (100 = 100 →
        s1.mem (0x10005030 + 0x40 * 3) = 0xFFFFFFFF ∧
        s1.mem (0x10005034 + 0x40 * 3) = 0xFFFFFFFF) ∧
      (0 < 100 ∧ 100 < 100 →
        s1.mem (0x10005030 + 0x40 * 3) = 0xAAAAAAAA ∧
        s1.mem (0x10005034 + 0x40 * 3) = 0xAAAAAAAA) :=
  pwm_send_data_by_duty 3 440 100 (Hw.const 0) (by decide) (by decide) (by decide)

/-- C7: for every channel in [0,3], 32-bit frequency > 0 and duty with
0 < duty < 100, the values that `pwm` writes to the high- and low-duration
registers are `duration*duty/100` and `duration*(100-duty)/100` (truncating),
where `duration` is the selected period duration, and they sum to `duration` or
to `duration - 1`. -/
theorem pwm_duty_split_drift (channel freq duty : Nat) (s : Hw) (hc : channel ≤ 3)
    (hf : 0 < freq) (h32 : freq < 2 ^ 32) (hd0 : 0 < duty) (hd1 : duty < 100) :
    ∃ s1 t hi lo, pwm channel freq duty s = some s1 ∧ pwmTiming freq = some t ∧
      (0x10005014 + 0x40 * channel, 4, hi) ∈ writesOf (s1.log.drop s.log.length) ∧
      (0x10005018 + 0x40 * channel, 4, lo) ∈ writesOf (s1.log.drop s.log.length) ∧
      s1.mem (0x10005014 + 0x40 * channel) = hi ∧
      s1.mem (0x10005018 + 0x40 * channel) = lo ∧
      hi = t.duration * duty / 100 ∧
      lo = t.duration * (100 - duty) / 100 ∧
      (hi + lo = t.duration ∨ hi + lo + 1 = t.duration) := by
  obtain ⟨t, hsel⟩ := pwmTiming_some freq hf h32
  have hD := pwmTiming_duration_le freq t hf h32 hsel
  have e0 := duration0_eq t.duration duty hD (by omega)
  have e1 := duration1_eq t.duration duty hD (by omega)
  have hlt0 : duration0 t.duration duty < 2 ^ 32 := Nat.mod_lt _ (by decide)
  have hlt1 : duration1 t.duration duty < 2 ^ 32 := Nat.mod_lt _ (by decide)
  have h0 : duty ≠ 0 := by omega
  have h100 : duty ≠ 100 := by omega
  obtain ⟨s1, w, hrun, hw, hmem, _, _, hwr⟩ :=
    pwm_channel_run channel freq duty s t hc (by omega) hsel
  rw [configWrites_channel channel t duty hc, dutyEdgeWrites_channel channel duty hc,
    if_neg h0, if_neg h100] at hw
  refine ⟨s1, t, duration0 t.duration duty, duration1 t.duration duty, hrun, hsel,
    ?_, ?_, ?_, ?_, e0, e1, ?_⟩
  · rw [hwr, hw]; simp
  · rw [hwr, hw]; simp
  · rw [hmem, hw]
    interval_cases channel <;>
      simp [applyWrites, storeMem, storeCell] <;> omega
  · rw [hmem, hw]
    interval_cases channel <;>
      simp [applyWrites, storeMem, storeCell] <;> omega
  · rw [e0, e1]
    exact split_sum t.duration duty (by omega)

/-- Witness of C7 for channel 1 at 1000 Hz and 33 % duty. -/
theorem pwm_duty_split_drift_witness :
    ∃ s1 t hi lo, pwm 1 1000 33 (Hw.const 0) = some s1 ∧ pwmTiming 1000 = some t ∧
      (0x10005014 + 0x40 * 1, 4, hi) ∈ writesOf (s1.log.drop (Hw.const 0).log.length) ∧
      (0x10005018 + 0x40 * 1, 4, lo) ∈ writesOf (s1.log.drop (Hw.const 0).log.length) ∧
      s1.mem (0x10005014 + 0x40 * 1) = hi ∧
      s1.mem (0x10005018 + 0x40 * 1) = lo ∧
      hi = t.duration * 33 / 100 ∧
      lo = t.duration * (100 - 33) / 100 ∧
      (hi + lo = t.duration ∨ hi + lo + 1 = t.duration) :=
  pwm_duty_split_drift 1 1000 33 (Hw.const 0) (by decide) (by decide) (by decide)
    (by decide) (by decide)

/-- C8: for every channel in [0,3], 32-bit frequency > 0 and duty, the stores of
`pwm` are: first the enable register (0x10005000) with the channel's bit clear,
then only stores to the channel's control, duration, guard, send-data and
wave-number registers, and last the enable register with the channel's bit set.
In the register state after the first store and after every later store but the
last, the channel's enable bit is clear; after the last store it is set. -/
theorem pwm_enable_last (channel freq duty : Nat) (s : Hw) (hc : channel ≤ 3)
    (hf : 0 < freq) (h32 : freq < 2 ^ 32) :
    ∃ s1 w0 mid w1,
      pwm channel freq duty s = some s1 ∧
      writesOf (s1.log.drop s.log.length) =
        (0x10005000, 4, w0) :: (mid ++ [(0x10005000, 4, w1)]) ∧
      s1.mem = applyWrites s.mem ((0x10005000, 4, w0) :: (mid ++ [(0x10005000, 4, w1)])) ∧
      w0.testBit channel = false ∧
      w1.testBit channel = true ∧
      mid.map (fun x => x.1) =
        [0x10005010 + 0x40 * channel, 0x10005014 + 0x40 * channel,
         0x10005018 + 0x40 * channel, 0x1000501C + 0x40 * channel,
         0x10005030 + 0x40 * channel, 0x10005034 + 0x40 * channel,
         0x10005038 + 0x40 * channel] ++
        (if duty = 0 ∨ duty = 100 then
          [0x10005030 + 0x40 * channel, 0x10005034 + 0x40 * channel] else []) ∧
      (∀ x ∈ mid, x.1 ≠ 0x10005000) ∧
      (∀ k, (applyWrites s.mem ((0x10005000, 4, w0) :: mid.take k) 0x10005000).testBit channel
        = false) ∧
      (s1.mem 0x10005000).testBit channel = true := by
  obtain ⟨t, hsel⟩ := pwmTiming_some freq hf h32
  obtain ⟨s1, w, hrun, hw, hmem, _, _, hwr⟩ :=
    pwm_channel_run channel freq duty s t hc (by omega) hsel
  have hne := channel_writes_not_enable channel duty t hc
  have hlt := clear_lt (s.mem 0x10005000) channel
  have hclr : (s.mem 0x10005000 % 2 ^ 32 &&& (0xFFFFFFFF ^^^ 2 ^ channel)).testBit channel
      = false := by
    rw [testBit_clear _ _ _ (by omega)]; simp
  have hset : (((s.mem 0x10005000 % 2 ^ 32 &&& (0xFFFFFFFF ^^^ 2 ^ channel)) ||| 2 ^ channel)
      % 2 ^ 32).testBit channel = true := by
    rw [testBit_set _ _ _ hlt (by omega)]; simp
  refine ⟨s1, _, _, _, hrun, hwr.trans hw, hmem.trans (congrArg _ hw), hclr, hset, ?_, hne,
    ?_, ?_⟩
  · rw [configWrites_channel channel t duty hc, dutyEdgeWrites_channel channel duty hc]
    by_cases h0 : duty = 0
    · simp [h0]
    · by_cases h100 : duty = 100
      · simp [h100]
      · simp [h0, h100]
  · intro k
    rw [applyWrites, applyWrites_untouched _ _ _
      (fun x hx => hne x (List.mem_of_mem_take hx))]
    simp only [storeMem, storeCell, if_true]
    rw [Nat.mod_eq_of_lt hlt]
    exact hclr
  · rw [hmem, hw, applyWrites, applyWrites_append]
    simp only [applyWrites, storeMem, storeCell, if_true, Nat.mod_mod]
    exact hset

/-- Witness of C8 for channel 0 at 1000 Hz and duty 0. -/
theorem pwm_enable_last_witness :
    ∃ s1 w0 mid w1,
      pwm 0 1000 0 (Hw.const 15) = some s1 ∧
      writesOf (s1.log.drop (Hw.const 15).log.length) =
        (0x10005000, 4, w0) :: (mid ++ [(0x10005000, 4, w1)]) ∧
      s1.mem = applyWrites (Hw.const 15).mem
        ((0x10005000, 4, w0) :: (mid ++ [(0x10005000, 4, w1)])) ∧
      w0.testBit 0 = false ∧
      w1.testBit 0 = true ∧
      mid.map (fun x => x.1) =
        [0x10005010 + 0x40 * 0, 0x10005014 + 0x40 * 0,
         0x10005018 + 0x40 * 0, 0x1000501C + 0x40 * 0,
         0x10005030 + 0x40 * 0, 0x10005034 + 0x40 * 0,
         0x10005038 + 0x40 * 0] ++
        (if 0 = 0 ∨ 0 = 100 then
          [0x10005030 + 0x40 * 0, 0x10005034 + 0x40 * 0] else []) ∧
      (∀ x ∈ mid, x.1 ≠ 0x10005000) ∧
      (∀ k, (applyWrites (Hw.const 15).mem
          ((0x10005000, 4, w0) :: mid.take k) 0x10005000).testBit 0 = false) ∧
      (s1.mem 0x10005000).testBit 0 = true :=
  pwm_enable_last 0 1000 0 (Hw.const 15) (by decide) (by decide) (by decide)

/-- C9: for every channel in [0,3], 32-bit frequency > 0 and 0 < duty < 100, the
stores of `pwm` between the enable-clear and the enable-set are exactly, in this
order and each at base + 0x40*channel: control (0x10005010) =
0x0200 | 0x800 | (8 if fast clock else 0) | divider, high duration (0x10005014) =
duration*duty/100, low duration (0x10005018) = duration*(100-duty)/100, guard
duration (0x1000501C) = 0, send data 0 (0x10005030) = 0xAAAAAAAA, send data 1
(0x10005034) = 0xAAAAAAAA, wave number (0x10005038) = 0. -/
theorem pwm_configuration_writes (channel freq duty : Nat) (s : Hw) (hc : channel ≤ 3)
    (hf : 0 < freq) (h32 : freq < 2 ^ 32) (hd0 : 0 < duty) (hd1 : duty < 100) :
    ∃ s1 t w0 w1,
      pwm channel freq duty s = some s1 ∧ pwmTiming freq = some t ∧
      w0.testBit channel = false ∧ w1.testBit channel = true ∧
      writesOf (s1.log.drop s.log.length) =
        [(0x10005000, 4, w0),
         (0x10005010 + 0x40 * channel, 4,
           0x0200 ||| 0x800 ||| (if t.fast ≠ 0 then 8 else 0) ||| t.divider),
         (0x10005014 + 0x40 * channel, 4, t.duration * duty / 100),
         (0x10005018 + 0x40 * channel, 4, t.duration * (100 - duty) / 100),
         (0x1000501C + 0x40 * channel, 4, 0),
         (0x10005030 + 0x40 * channel, 4, 0xAAAAAAAA),
         (0x10005034 + 0x40 * channel, 4, 0xAAAAAAAA),
         (0x10005038 + 0x40 * channel, 4, 0),
         (0x10005000, 4, w1)] := by
  obtain ⟨t, hsel⟩ := pwmTiming_some freq hf h32
  have hD := pwmTiming_duration_le freq t hf h32 hsel
  have e0 := duration0_eq t.duration duty hD (by omega)
  have e1 := duration1_eq t.duration duty hD (by omega)
  have h0 : duty ≠ 0 := by omega
  have h100 : duty ≠ 100 := by omega
  obtain ⟨s1, w, hrun, hw, _, _, _, hwr⟩ :=
    pwm_channel_run channel freq duty s t hc (by omega) hsel
  have hlt := clear_lt (s.mem 0x10005000) channel
  have hclr : (s.mem 0x10005000 % 2 ^ 32 &&& (0xFFFFFFFF ^^^ 2 ^ channel)).testBit channel
      = false := by
    rw [testBit_clear _ _ _ (by omega)]; simp
  have hset : (((s.mem 0x10005000 % 2 ^ 32 &&& (0xFFFFFFFF ^^^ 2 ^ channel)) ||| 2 ^ channel)
      % 2 ^ 32).testBit channel = true := by
    rw [testBit_set _ _ _ hlt (by omega)]; simp
  rw [configWrites_channel channel t duty hc, dutyEdgeWrites_channel channel duty hc,
    if_neg h0, if_neg h100, e0, e1] at hw
  refine ⟨s1, t, _, _, hrun, hsel, hclr, hset, ?_⟩
  rw [hwr, hw]
  rfl

/-- Witness of C9 for channel 2 at 10 Hz (slow clock) and 50 % duty. -/
theorem pwm_configuration_writes_witness :
    ∃ s1 t w0 w1,
      pwm 2 10 50 (Hw.const 0) = some s1 ∧ pwmTiming 10 = some t ∧
      w0.testBit 2 = false ∧ w1.testBit 2 = true ∧
      writesOf (s1.log.drop (Hw.const 0).log.length) =
        [(0x10005000, 4, w0),
         (0x10005010 + 0x40 * 2, 4,
           0x0200 ||| 0x800 ||| (if t.fast ≠ 0 then 8 else 0) ||| t.divider),
         (0x10005014 + 0x40 * 2, 4, t.duration * 50 / 100),
         (0x10005018 + 0x40 * 2, 4, t.duration * (100 - 50) / 100),
         (0x1000501C + 0x40 * 2, 4, 0),
         (0x10005030 + 0x40 * 2, 4, 0xAAAAAAAA),
         (0x10005034 + 0x40 * 2, 4, 0xAAAAAAAA),
         (0x10005038 + 0x40 * 2, 4, 0),
         (0x10005000, 4, w1)] :=
  pwm_configuration_writes 2 10 50 (Hw.const 0) (by decide) (by decide) (by decide)
    (by decide) (by decide)

/-- C10 (as stated, refuted): in the run `pwm(0, 1000, 50)` on a register file
whose registers all hold 5, the accesses that follow the last configuration
write are the read-back of the wave-number register, the store of 5 to the enable
register and its read-back; no read of the enable register (0x10005000) precedes
the final store. -/
theorem pwm_enable_not_read_again :
    ∃ s1, pwm 0 1000 50 (Hw.const 5) = some s1 ∧
      afterLastOtherWrite 0x10005000 s1.log =
        [Access.read 0x10005038 4 0, Access.write 0x10005000 4 5,
         Access.read 0x10005000 4 5] ∧
      ¬ ∃ pre v post w,
        afterLastOtherWrite 0x10005000 s1.log = pre ++ Access.read 0x10005000 4 v :: post ∧
        Access.write 0x10005000 4 w ∈ post := by
  have htail : (pwm 0 1000 50 (Hw.const 5)).map (fun s1 => afterLastOtherWrite 0x10005000 s1.log)
      = some [Access.read 0x10005038 4 0, Access.write 0x10005000 4 5,
         Access.read 0x10005000 4 5] := by
    decide
  cases hrun : pwm 0 1000 50 (Hw.const 5) with
  | none => rw [hrun] at htail; exact absurd htail (by simp)
  | some s1 =>
    rw [hrun] at htail
    have ht : afterLastOtherWrite 0x10005000 s1.log = _ := Option.some.inj htail
    refine ⟨s1, rfl, ht, ?_⟩
    rintro ⟨pre, v, post, w, hsplit, hmem⟩
    rw [ht] at hsplit
    rcases pre with _ | ⟨a, _ | ⟨b, _ | ⟨c, pre⟩⟩⟩
    · simp at hsplit
    · simp at hsplit
    · simp only [List.cons_append, List.nil_append, List.cons.injEq] at hsplit
      obtain ⟨_, _, _, hpost⟩ := hsplit
      rw [← hpost] at hmem
      simp at hmem
    · simp at hsplit

/-- C10 (amended): for every channel in [0,3] and 32-bit frequency > 0, `pwm`
reads the enable register (0x10005000) once, at its start.  After the
enable-clear and its read-back the log holds only accesses to other registers
until the final store, whose value is the value read at the start with bit
`channel` cleared and then set; in the store that retains written values this is
the content of the enable register at that moment with bit `channel` set. -/
theorem pwm_enable_set_from_first_read (channel freq duty : Nat) (s : Hw) (hc : channel ≤ 3)
    (hf : 0 < freq) (h32 : freq < 2 ^ 32) :
    ∃ s1 w0 w1 cfg,
      pwm channel freq duty s = some s1 ∧
      s1.log = s.log ++
        ([Access.read 0x10005000 4 (s.mem 0x10005000 % 2 ^ 32),
          Access.write 0x10005000 4 w0, Access.read 0x10005000 4 w0] ++ cfg ++
         [Access.write 0x10005000 4 w1, Access.read 0x10005000 4 w1]) ∧
      (∀ e ∈ cfg, e.addr ≠ 0x10005000) ∧
      (∀ i, w0.testBit i =
        ((s.mem 0x10005000 % 2 ^ 32).testBit i && !decide (i = channel))) ∧
      w1 = w0 ||| 2 ^ channel ∧
      (∀ i, w1.testBit i =
        ((s.mem 0x10005000 % 2 ^ 32).testBit i || decide (i = channel))) ∧
      applyWrites s.mem
        (writesOf ([Access.read 0x10005000 4 (s.mem 0x10005000 % 2 ^ 32),
          Access.write 0x10005000 4 w0, Access.read 0x10005000 4 w0] ++ cfg)) 0x10005000
        = w0 := by
  obtain ⟨t, hsel⟩ := pwmTiming_some freq hf h32
  obtain ⟨s1, w, hrun, hw, _, hlog, _, _⟩ :=
    pwm_channel_run channel freq duty s t hc (by omega) hsel
  have hne := channel_writes_not_enable channel duty t hc
  have hlt := clear_lt (s.mem 0x10005000) channel
  have hp : (2 : Nat) ^ channel < 2 ^ 32 := Nat.pow_lt_pow_right (by decide) (by omega)
  have hor : (s.mem 0x10005000 % 2 ^ 32 &&& (0xFFFFFFFF ^^^ 2 ^ channel)) ||| 2 ^ channel
      < 2 ^ 32 := Nat.or_lt_two_pow hlt hp
  refine ⟨s1, s.mem 0x10005000 % 2 ^ 32 &&& (0xFFFFFFFF ^^^ 2 ^ channel),
    ((s.mem 0x10005000 % 2 ^ 32 &&& (0xFFFFFFFF ^^^ 2 ^ channel)) ||| 2 ^ channel) % 2 ^ 32,
    writeEvents (configWrites (0x40 * channel % 2 ^ 32) t duty ++
      dutyEdgeWrites (0x40 * channel % 2 ^ 32) duty),
    hrun, ?_, ?_, fun i => testBit_clear _ _ i (by omega), Nat.mod_eq_of_lt hor, ?_, ?_⟩
  · rw [hlog, hw, writeEvents_enclosed _ _ _ _ _ hlt (Nat.mod_lt _ (by decide))]
    simp only [List.cons_append, List.nil_append, List.append_assoc]
  · intro e he
    obtain ⟨x, hx, e1⟩ := writeEvents_addr _ e he
    rw [e1]
    exact hne x hx
  · intro i
    rw [testBit_set _ _ _ hlt (by omega), testBit_clear _ _ _ (by omega)]
    by_cases h : i = channel <;> simp [h]
  · rw [writesOf_append, writesOf_writeEvents]
    show applyWrites (storeMem s.mem 0x10005000 4 _)
      (configWrites (0x40 * channel % 2 ^ 32) t duty ++
        dutyEdgeWrites (0x40 * channel % 2 ^ 32) duty) 0x10005000 = _
    rw [applyWrites_untouched _ _ _ hne]
    simp only [storeMem, storeCell, if_true]
    exact Nat.mod_eq_of_lt hlt

/-- Witness of C10 (amended) for channel 0 at 1000 Hz and 50 % duty. -/
theorem pwm_enable_set_from_first_read_witness :
    ∃ s1 w0 w1 cfg,
      pwm 0 1000 50 (Hw.const 5) = some s1 ∧
      s1.log = (Hw.const 5).log ++
        ([Access.read 0x10005000 4 ((Hw.const 5).mem 0x10005000 % 2 ^ 32),
          Access.write 0x10005000 4 w0, Access.read 0x10005000 4 w0] ++ cfg ++
         [Access.write 0x10005000 4 w1, Access.read 0x10005000 4 w1]) ∧
      (∀ e ∈ cfg, e.addr ≠ 0x10005000) ∧
      (∀ i, w0.testBit i =
        (((Hw.const 5).mem 0x10005000 % 2 ^ 32).testBit i && !decide (i = 0))) ∧
      w1 = w0 ||| 2 ^ 0 ∧
      (∀ i, w1.testBit i =
        (((Hw.const 5).mem 0x10005000 % 2 ^ 32).testBit i || decide (i = 0))) ∧
      applyWrites (Hw.const 5).mem
        (writesOf ([Access.read 0x10005000 4 ((Hw.const 5).mem 0x10005000 % 2 ^ 32),
          Access.write 0x10005000 4 w0, Access.read 0x10005000 4 w0] ++ cfg)) 0x10005000
        = w0 :=
  pwm_enable_set_from_first_read 0 1000 50 (Hw.const 5) (by decide) (by decide) (by decide)

/-! ## Auxiliary facts: running `pwm` again -/

theorem applyWrites_congr (l : List (Nat × Nat × Nat)) (h4 : ∀ x ∈ l, x.2.1 = 4) :
    ∀ m1 m2 : Nat → Nat, (∀ a, (∀ x ∈ l, x.1 ≠ a) → m1 a = m2 a) →
      applyWrites m1 l = applyWrites m2 l := by
  induction l with
  | nil =>
    intro m1 m2 h
    funext a
    exact h a (fun x hx => absurd hx (List.not_mem_nil x))
  | cons x l ih =>
    obtain ⟨b, sz, v⟩ := x
    intro m1 m2 h
    have hsz : sz = 4 := h4 (b, sz, v) (List.mem_cons_self _ _)
    subst hsz
    rw [applyWrites, applyWrites]
    apply ih (fun y hy => h4 y (List.mem_cons_of_mem _ hy))
    intro a ha
    by_cases hab : a = b
    · simp [storeMem, storeCell, hab]
    · simp only [storeMem, if_neg hab]
      apply h a
      intro y hy
      rcases List.mem_cons.1 hy with rfl | hy
      · exact fun e => hab e.symm
      · exact ha y hy

theorem applyWrites_twice (l : List (Nat × Nat × Nat)) (h4 : ∀ x ∈ l, x.2.1 = 4)
    (mem : Nat → Nat) : applyWrites (applyWrites mem l) l = applyWrites mem l :=
  applyWrites_congr l h4 _ _ (fun a ha => applyWrites_untouched l a mem ha)

theorem channel_writes_size (off duty : Nat) (t : Timing) :
    ∀ x ∈ configWrites off t duty ++ dutyEdgeWrites off duty, x.2.1 = 4 := by
  intro x hx
  rcases List.mem_append.1 hx with h | h
  · simp only [configWrites, List.mem_cons, List.mem_singleton, List.not_mem_nil, or_false] at h
    rcases h with rfl | rfl | rfl | rfl | rfl | rfl | rfl <;> rfl
  · unfold dutyEdgeWrites at h
    split at h
    · simp only [List.mem_cons, List.mem_singleton, List.not_mem_nil, or_false] at h
      rcases h with rfl | rfl <;> rfl
    · split at h
      · simp only [List.mem_cons, List.mem_singleton, List.not_mem_nil, or_false] at h
        rcases h with rfl | rfl <;> rfl
      · simp at h

theorem clear_idem (v ch : Nat) (hc : ch < 32) :
    (v % 2 ^ 32 &&& (0xFFFFFFFF ^^^ 2 ^ ch)) % 2 ^ 32 &&& (0xFFFFFFFF ^^^ 2 ^ ch) =
      v % 2 ^ 32 &&& (0xFFFFFFFF ^^^ 2 ^ ch) := by
  apply Nat.eq_of_testBit_eq
  intro i
  rw [testBit_clear _ _ _ hc, Nat.mod_eq_of_lt (clear_lt v ch), testBit_clear _ _ _ hc]
  cases (v % 2 ^ 32).testBit i <;> cases decide (i = ch) <;> rfl

theorem clear_set_clear (v ch : Nat) (hc : ch < 32) :
    ((v % 2 ^ 32 &&& (0xFFFFFFFF ^^^ 2 ^ ch)) ||| 2 ^ ch) % 2 ^ 32
        &&& (0xFFFFFFFF ^^^ 2 ^ ch) =
      v % 2 ^ 32 &&& (0xFFFFFFFF ^^^ 2 ^ ch) := by
  apply Nat.eq_of_testBit_eq
  intro i
  rw [← Nat.mod_mod (_ ||| _), testBit_clear _ _ _ hc, Nat.mod_mod,
    testBit_set _ _ _ (clear_lt v ch) hc, testBit_clear _ _ _ hc]
  cases (v % 2 ^ 32).testBit i <;> cases decide (i = ch) <;> rfl

theorem enable_after_run (mem : Nat → Nat) (w0 w1 : Nat) (mid : List (Nat × Nat × Nat)) :
    applyWrites mem ((PWM_ENABLE, 4, w0) :: (mid ++ [(PWM_ENABLE, 4, w1)])) PWM_ENABLE
      = w1 % 2 ^ 32 := by
  rw [applyWrites, applyWrites_append]
  simp [applyWrites, storeMem, storeCell]

/-- C11: for every channel in [0,3], every 32-bit frequency (zero included),
every duty and every initial register state, `pwm(channel, freq, duty)` returns,
a second call with the same arguments on the resulting state returns too, and
the register file after the second call equals the register file after the
first. -/
theorem pwm_twice_same_registers (channel freq duty : Nat) (s : Hw) (hc : channel ≤ 3)
    (h32 : freq < 2 ^ 32) :
    ∃ s1 s2, pwm channel freq duty s = some s1 ∧ pwm channel freq duty s1 = some s2 ∧
      s2.mem = s1.mem := by
  have hc32 : channel < 32 := by omega
  by_cases hf : freq = 0
  · subst hf
    refine ⟨_, _, pwm_off_run channel duty s (by omega), pwm_off_run channel duty _ (by omega),
      ?_⟩
    funext a
    by_cases ha : a = PWM_ENABLE
    · subst ha
      simp only [storeMem, storeCell, if_true, Nat.mod_mod]
      rw [clear_idem _ _ hc32]
    · simp only [storeMem, if_neg ha]
  · obtain ⟨t, hsel⟩ := pwmTiming_some freq (by omega) h32
    have h4 : ∀ x ∈ (PWM_ENABLE, 4, s.mem PWM_ENABLE % 2 ^ 32 &&& (0xFFFFFFFF ^^^ 2 ^ channel)) ::
        (configWrites (0x40 * channel % 2 ^ 32) t duty ++
          dutyEdgeWrites (0x40 * channel % 2 ^ 32) duty ++
          [(PWM_ENABLE, 4,
            ((s.mem PWM_ENABLE % 2 ^ 32 &&& (0xFFFFFFFF ^^^ 2 ^ channel)) ||| 2 ^ channel)
              % 2 ^ 32)]), x.2.1 = 4 := by
      intro x hx
      rcases List.mem_cons.1 hx with rfl | hx
      · rfl
      · rcases List.mem_append.1 hx with hx | hx
        · exact channel_writes_size _ duty t x hx
        · rw [List.mem_singleton.1 hx]
    refine ⟨_, _, pwm_on_run channel freq duty s t (by omega) hf hsel,
      pwm_on_run channel freq duty _ t (by omega) hf hsel, ?_⟩
    simp only []
    rw [enable_after_run]
    simp only [Nat.mod_mod]
    rw [clear_set_clear _ _ hc32]
    exact applyWrites_twice _ h4 _

/-- Witness of C11 for channel 1 at 1000 Hz and 25 % duty. -/
theorem pwm_twice_same_registers_witness :
    ∃ s1 s2, pwm 1 1000 25 (Hw.const 15) = some s1 ∧ pwm 1 1000 25 s1 = some s2 ∧
      s2.mem = s1.mem :=
  pwm_twice_same_registers 1 1000 25 (Hw.const 15) (by decide) (by decide)

/-! ## Auxiliary facts: the duration registers after a run -/

/-- After a run of `pwm` with a non-zero frequency the duration registers of the
channel hold the two values computed from the selected duration, both values
were stored through `devmem`, and the channel's enable bit is set. -/
theorem pwm_duration_registers (channel freq duty : Nat) (s : Hw) (t : Timing)
    (hc : channel ≤ 3) (hf : freq ≠ 0) (ht : pwmTiming freq = some t) :
    ∃ s1, pwm channel freq duty s = some s1 ∧
      s1.mem (0x10005014 + 0x40 * channel) = duration0 t.duration duty ∧
      s1.mem (0x10005018 + 0x40 * channel) = duration1 t.duration duty ∧
      (0x10005014 + 0x40 * channel, 4, duration0 t.duration duty)
        ∈ writesOf (s1.log.drop s.log.length) ∧
      (0x10005018 + 0x40 * channel, 4, duration1 t.duration duty)
        ∈ writesOf (s1.log.drop s.log.length) ∧
      (s1.mem 0x10005000).testBit channel = true := by
  have hlt0 : duration0 t.duration duty < 2 ^ 32 := Nat.mod_lt _ (by decide)
  have hlt1 : duration1 t.duration duty < 2 ^ 32 := Nat.mod_lt _ (by decide)
  obtain ⟨s1, w, hrun, hw, hmem, _, _, hwr⟩ :=
    pwm_channel_run channel freq duty s t hc hf ht
  have hE : s1.mem 0x10005000 =
      ((s.mem 0x10005000 % 2 ^ 32 &&& (0xFFFFFFFF ^^^ 2 ^ channel)) ||| 2 ^ channel)
        % 2 ^ 32 % 2 ^ 32 := by
    rw [hmem, hw]
    exact enable_after_run _ _ _ _
  have hset : (((s.mem 0x10005000 % 2 ^ 32 &&& (0xFFFFFFFF ^^^ 2 ^ channel)) ||| 2 ^ channel)
      % 2 ^ 32).testBit channel = true := by
    rw [testBit_set _ _ _ (clear_lt _ _) (by omega)]; simp
  rw [configWrites_channel channel t duty hc, dutyEdgeWrites_channel channel duty hc] at hw
  refine ⟨s1, hrun, ?_, ?_, ?_, ?_, ?_⟩
  · rw [hmem, hw]
    by_cases h0 : duty = 0
    · rw [if_pos h0]
      interval_cases channel <;>
        simp [applyWrites, storeMem, storeCell] <;> omega
    · by_cases h100 : duty = 100
      · rw [if_neg h0, if_pos h100]
        interval_cases channel <;>
          simp [applyWrites, storeMem, storeCell] <;> omega
      · rw [if_neg h0, if_neg h100]
        interval_cases channel <;>
          simp [applyWrites, storeMem, storeCell] <;> omega
  · rw [hmem, hw]
    by_cases h0 : duty = 0
    · rw [if_pos h0]
      interval_cases channel <;>
        simp [applyWrites, storeMem, storeCell] <;> omega
    · by_cases h100 : duty = 100
      · rw [if_neg h0, if_pos h100]
        interval_cases channel <;>
          simp [applyWrites, storeMem, storeCell] <;> omega
      · rw [if_neg h0, if_neg h100]
        interval_cases channel <;>
          simp [applyWrites, storeMem, storeCell] <;> omega
  · rw [hwr, hw]; simp
  · rw [hwr, hw]; simp
  · rw [hE, Nat.mod_mod]
    exact hset

/-- C12: `pwm(channel=1, frequency=1000, duty=25)`, from any register state:
the divider search computes 40000 at divider 0 and 20000 at divider 1 (both over
15000) and 10000 at divider 2; the fast clock is selected with divider 2 and
duration 10000; 2500 is written to channel 1's high-duration register
(0x10005054) and 7500 to its low-duration register (0x10005058). -/
theorem pwm_example_1000hz_25pct (s : Hw) :
    fastDuration 0 1000 = some 40000 ∧ fastDuration 1 1000 = some 20000 ∧
    fastDuration 2 1000 = some 10000 ∧
    pwmTiming 1000 = some { fast := 1, divider := 2, duration := 10000 } ∧
    ∃ s1, pwm 1 1000 25 s = some s1 ∧
      (0x10005054, 4, 2500) ∈ writesOf (s1.log.drop s.log.length) ∧
      (0x10005058, 4, 7500) ∈ writesOf (s1.log.drop s.log.length) ∧
      s1.mem 0x10005054 = 2500 ∧ s1.mem 0x10005058 = 7500 := by
  have ht : pwmTiming 1000 = some { fast := 1, divider := 2, duration := 10000 } := by decide
  refine ⟨by decide, by decide, by decide, ht, ?_⟩
  obtain ⟨s1, hrun, hH, hL, hwH, hwL, _⟩ :=
    pwm_duration_registers 1 1000 25 s _ (by decide) (by decide) ht
  have e0 : duration0 10000 25 = 2500 := by decide
  have e1 : duration1 10000 25 = 7500 := by decide
  simp only [e0, e1] at hH hL hwH hwL
  exact ⟨s1, hrun, hwH, hwL, hH, hL⟩

/-- C13: for every channel in [0,3], duty, register state and 32-bit frequency
> 0, the selected period duration is 0 exactly when the frequency exceeds
40000000; in that case `pwm` still returns, writes 0 to the high- and to the
low-duration register and leaves the channel's enable bit set.  At the boundary
frequency 40000000 the fast clock is selected with divider 0 and duration 1. -/
theorem pwm_zero_duration_above_40mhz (channel freq duty : Nat) (s : Hw) (hc : channel ≤ 3)
    (hf : 0 < freq) (h32 : freq < 2 ^ 32) :
    (∃ t, pwmTiming freq = some t ∧
      (t.duration = 0 ↔ 40000000 < freq) ∧
      (40000000 < freq →
        t.fast = 1 ∧ t.divider = 0 ∧
        ∃ s1, pwm channel freq duty s = some s1 ∧
          (0x10005014 + 0x40 * channel, 4, 0) ∈ writesOf (s1.log.drop s.log.length) ∧
          (0x10005018 + 0x40 * channel, 4, 0) ∈ writesOf (s1.log.drop s.log.length) ∧
          s1.mem (0x10005014 + 0x40 * channel) = 0 ∧
          s1.mem (0x10005018 + 0x40 * channel) = 0 ∧
          (s1.mem 0x10005000).testBit channel = true)) ∧
    pwmTiming 40000000 = some { fast := 1, divider := 0, duration := 1 } := by
  refine ⟨?_, by decide⟩
  obtain ⟨d, hd, hsmall, hlast, hsel⟩ := pwmTiming_spec freq hf h32
  by_cases hc1 : 15000 < 40000000 / (2 ^ d * freq)
  · -- slow clock: the frequency is at most 20
    rw [if_pos hc1] at hsel
    have hp : 0 < 2 ^ d * freq := Nat.mul_pos (Nat.pow_pos (by decide)) hf
    have hb := over_limit_bound _ hp hc1
    have hpow : 1 ≤ 2 ^ d := Nat.pow_pos (by decide)
    have hfle : freq ≤ 2666 := by nlinarith
    have hdur : 0 < 100000 / freq := Nat.div_pos (by omega) hf
    refine ⟨_, hsel, ⟨fun h => by simp only [] at h; omega, fun h => by omega⟩,
      fun h => by omega⟩
  · rw [if_neg hc1] at hsel
    by_cases hd0 : d = 0
    · subst hd0
      have e : 2 ^ 0 * freq = freq := by omega
      rw [e] at hsel hc1
      have hiff : 40000000 / freq = 0 ↔ 40000000 < freq := by
        rw [Nat.div_eq_zero_iff hf]
      refine ⟨_, hsel, hiff, fun h => ⟨rfl, rfl, ?_⟩⟩
      have hz : 40000000 / freq = 0 := hiff.2 h
      obtain ⟨s1, hrun, hH, hL, hwH, hwL, hE⟩ :=
        pwm_duration_registers channel freq duty s _ hc (by omega) hsel
      have e0 : duration0 0 duty = 0 := by simp [duration0]
      have e1 : duration1 0 duty = 0 := by simp [duration1]
      simp only [hz, e0, e1] at hH hL hwH hwL
      exact ⟨s1, hrun, hwH, hwL, hH, hL, hE⟩
    · -- a divider above 0 was reached: the previous one was over the limit
      have hprev := hsmall (d - 1) (by omega)
      have hp : 0 < 2 ^ (d - 1) * freq := Nat.mul_pos (Nat.pow_pos (by decide)) hf
      have hb := over_limit_bound _ hp hprev
      have e : 2 ^ d * freq = 2 * (2 ^ (d - 1) * freq) := by
        have : d = (d - 1) + 1 := by omega
        rw [this, Nat.pow_succ]
        simp only [Nat.add_sub_cancel]
        ring
      have hpow : 1 ≤ 2 ^ (d - 1) := Nat.pow_pos (by decide)
      have hfle : freq ≤ 2666 := by nlinarith
      have hq : 2 ^ d * freq ≤ 40000000 := by omega
      have hdur : 0 < 40000000 / (2 ^ d * freq) :=
        Nat.div_pos hq (Nat.mul_pos (Nat.pow_pos (by decide)) hf)
      refine ⟨_, hsel, ⟨fun h => by simp only [] at h; omega, fun h => by omega⟩,
        fun h => by omega⟩

/-- Witness of C13 for channel 0 at 50 MHz. -/
theorem pwm_zero_duration_above_40mhz_witness :
    (∃ t, pwmTiming 50000000 = some t ∧
      (t.duration = 0 ↔ 40000000 < 50000000) ∧
      (40000000 < 50000000 →
        t.fast = 1 ∧ t.divider = 0 ∧
        ∃ s1, pwm 0 50000000 50 (Hw.const 0) = some s1 ∧
          (0x10005014 + 0x40 * 0, 4, 0) ∈ writesOf (s1.log.drop (Hw.const 0).log.length) ∧
          (0x10005018 + 0x40 * 0, 4, 0) ∈ writesOf (s1.log.drop (Hw.const 0).log.length) ∧
          s1.mem (0x10005014 + 0x40 * 0) = 0 ∧
          s1.mem (0x10005018 + 0x40 * 0) = 0 ∧
          (s1.mem 0x10005000).testBit 0 = true)) ∧
    pwmTiming 40000000 = some { fast := 1, divider := 0, duration := 1 } :=
  pwm_zero_duration_above_40mhz 0 50000000 50 (Hw.const 0) (by decide) (by decide) (by decide)

/-- C14: for every 32-bit frequency > 0 with selected clock source C (40000000
on the fast clock, 100000 on the slow clock), divider d and duration D:
D = C / (2^d * freq) in truncating division, that is
D * (2^d * freq) <= C < (D+1) * (2^d * freq); and whenever D > 0 the realised
frequency (C / 2^d) / D is at least the requested frequency. -/
theorem pwm_duration_is_floor (freq : Nat) (hf : 0 < freq) (h32 : freq < 2 ^ 32) :
    ∃ t C, pwmTiming freq = some t ∧
      C = (if t.fast ≠ 0 then 40000000 else 100000) ∧
      t.duration = C / (2 ^ t.divider * freq) ∧
      t.duration * (2 ^ t.divider * freq) ≤ C ∧
      C < (t.duration + 1) * (2 ^ t.divider * freq) ∧
      (0 < t.duration → freq ≤ C / 2 ^ t.divider / t.duration) := by
  have key : ∀ C d : Nat,
      C / (2 ^ d * freq) * (2 ^ d * freq) ≤ C ∧
      C < (C / (2 ^ d * freq) + 1) * (2 ^ d * freq) ∧
      (0 < C / (2 ^ d * freq) → freq ≤ C / 2 ^ d / (C / (2 ^ d * freq))) := by
    intro C d
    have hp : 0 < 2 ^ d * freq := Nat.mul_pos (Nat.pow_pos (by decide)) hf
    have h1 : C / (2 ^ d * freq) * (2 ^ d * freq) ≤ C := Nat.div_mul_le_self _ _
    refine ⟨h1, ?_, ?_⟩
    · have := Nat.lt_mul_div_succ C hp
      calc C < 2 ^ d * freq * (C / (2 ^ d * freq) + 1) := this
        _ = (C / (2 ^ d * freq) + 1) * (2 ^ d * freq) := Nat.mul_comm _ _
    · intro hD
      rw [Nat.le_div_iff_mul_le hD, Nat.le_div_iff_mul_le (Nat.pow_pos (by decide))]
      calc freq * (C / (2 ^ d * freq)) * 2 ^ d
          = C / (2 ^ d * freq) * (2 ^ d * freq) := by ring
        _ ≤ C := h1
  obtain ⟨d, _, _, _, hsel⟩ := pwmTiming_spec freq hf h32
  by_cases hc : 15000 < 40000000 / (2 ^ d * freq)
  · rw [if_pos hc] at hsel
    have k := key 100000 0
    have e : 2 ^ 0 * freq = freq := by omega
    rw [e] at k
    refine ⟨_, 100000, hsel, rfl, ?_, ?_, ?_, ?_⟩
    · show 100000 / freq = 100000 / (2 ^ 0 * freq)
      rw [e]
    · show 100000 / freq * (2 ^ 0 * freq) ≤ 100000
      rw [e]; exact k.1
    · show 100000 < (100000 / freq + 1) * (2 ^ 0 * freq)
      rw [e]; exact k.2.1
    · show 0 < 100000 / freq → freq ≤ 100000 / 2 ^ 0 / (100000 / freq)
      exact k.2.2
  · rw [if_neg hc] at hsel
    exact ⟨_, 40000000, hsel, rfl, rfl, (key 40000000 d).1, (key 40000000 d).2.1,
      (key 40000000 d).2.2⟩

/-- Witness of C14 at 3 Hz (slow clock, 100000 / 3 = 33333). -/
theorem pwm_duration_is_floor_witness :
    ∃ t C, pwmTiming 3 = some t ∧
      C = (if t.fast ≠ 0 then 40000000 else 100000) ∧
      t.duration = C / (2 ^ t.divider * 3) ∧
      t.duration * (2 ^ t.divider * 3) ≤ C ∧
      C < (t.duration + 1) * (2 ^ t.divider * 3) ∧
      (0 < t.duration → 3 ≤ C / 2 ^ t.divider / t.duration) :=
  pwm_duration_is_floor 3 (by decide) (by decide)

/-! ## Auxiliary facts: the footprint of a run -/

/-- Any run of `pwm` for a channel in [0,3]: its stores, the resulting register
file, the addresses stored to and the enable bits of the other channels. -/
theorem pwm_any_run (channel freq duty : Nat) (s : Hw) (hc : channel ≤ 3)
    (h32 : freq < 2 ^ 32) :
    ∃ s1 w, pwm channel freq duty s = some s1 ∧
      writesOf (s1.log.drop s.log.length) = w ∧
      s1.mem = applyWrites s.mem w ∧
      (∀ x ∈ w, x.1 = 0x10005000 ∨
        x.1 ∈ [0x10005010 + 0x40 * channel, 0x10005014 + 0x40 * channel,
          0x10005018 + 0x40 * channel, 0x1000501C + 0x40 * channel,
          0x10005030 + 0x40 * channel, 0x10005034 + 0x40 * channel,
          0x10005038 + 0x40 * channel]) ∧
      (∀ i, i < 32 → i ≠ channel →
        (s1.mem 0x10005000).testBit i = (s.mem 0x10005000).testBit i) := by
  have hc32 : channel < 32 := by omega
  have hbit0 : ∀ i, i < 32 → i ≠ channel →
      (s.mem 0x10005000 % 2 ^ 32 &&& (0xFFFFFFFF ^^^ 2 ^ channel)).testBit i
        = (s.mem 0x10005000).testBit i := by
    intro i hi hne
    rw [testBit_clear _ _ _ hc32, Nat.testBit_mod_two_pow]
    simp [hi, hne]
  by_cases hf : freq = 0
  · subst hf
    refine ⟨_, [(0x10005000, 4, s.mem 0x10005000 % 2 ^ 32 &&& (0xFFFFFFFF ^^^ 2 ^ channel))],
      pwm_off_run channel duty s (by omega), ?_, rfl, ?_, ?_⟩
    · show writesOf (List.drop s.log.length (s.log ++ _)) = _
      rw [List.drop_left]
      rfl
    · intro x hx
      rw [List.mem_singleton.1 hx]
      exact Or.inl rfl
    · intro i hi hne
      show (storeMem s.mem 0x10005000 4 _ 0x10005000).testBit i = _
      simp only [storeMem, storeCell, if_true]
      rw [Nat.mod_eq_of_lt (clear_lt _ _)]
      exact hbit0 i hi hne
  · obtain ⟨t, hsel⟩ := pwmTiming_some freq (by omega) h32
    obtain ⟨s1, w, hrun, hw, hmem, _, _, hwr⟩ :=
      pwm_channel_run channel freq duty s t hc hf hsel
    refine ⟨s1, w, hrun, hwr, hmem, ?_, ?_⟩
    · intro x hx
      rw [hw] at hx
      rcases List.mem_cons.1 hx with rfl | hx
      · exact Or.inl rfl
      · rcases List.mem_append.1 hx with hx | hx
        · exact Or.inr (channel_writes_addr channel duty t hc x hx)
        · rw [List.mem_singleton.1 hx]
          exact Or.inl rfl
    · intro i hi hne
      rw [hmem, hw]
      show (applyWrites s.mem ((PWM_ENABLE, 4, _) :: (_ ++ [(PWM_ENABLE, 4, _)])) PWM_ENABLE).testBit i
        = _
      rw [enable_after_run, Nat.mod_mod, testBit_set _ _ _ (clear_lt _ _) hc32]
      simp only [hne, decide_False, Bool.or_false]
      exact hbit0 i hi hne

/-- C16: for every channel in [0,3], 32-bit frequency and duty, `pwm` returns
and leaves unchanged every register other than the global enable register
(0x10005000) and the seven registers of the channel's block (control, high, low,
guard, send data 0/1, wave number at base + 0x40*channel); every store it issues
goes to one of these; in the enable register every bit other than bit `channel`
keeps its initial value; and a run for a different channel in [0,3] stores to no
address in common with it except the global enable register. -/
theorem pwm_frame (channel freq duty : Nat) (s : Hw) (channel2 freq2 duty2 : Nat) (s' : Hw)
    (hc : channel ≤ 3) (h32 : freq < 2 ^ 32) (hc2 : channel2 ≤ 3) (h322 : freq2 < 2 ^ 32)
    (hne : channel ≠ channel2) :
    ∃ s1 s2, pwm channel freq duty s = some s1 ∧ pwm channel2 freq2 duty2 s' = some s2 ∧
      (∀ a, a ≠ 0x10005000 →
        a ∉ [0x10005010 + 0x40 * channel, 0x10005014 + 0x40 * channel,
          0x10005018 + 0x40 * channel, 0x1000501C + 0x40 * channel,
          0x10005030 + 0x40 * channel, 0x10005034 + 0x40 * channel,
          0x10005038 + 0x40 * channel] →
        s1.mem a = s.mem a) ∧
      (∀ x ∈ writesOf (s1.log.drop s.log.length), x.1 = 0x10005000 ∨
        x.1 ∈ [0x10005010 + 0x40 * channel, 0x10005014 + 0x40 * channel,
          0x10005018 + 0x40 * channel, 0x1000501C + 0x40 * channel,
          0x10005030 + 0x40 * channel, 0x10005034 + 0x40 * channel,
          0x10005038 + 0x40 * channel]) ∧
      (∀ i, i < 32 → i ≠ channel →
        (s1.mem 0x10005000).testBit i = (s.mem 0x10005000).testBit i) ∧
      (∀ x ∈ writesOf (s1.log.drop s.log.length),
        ∀ y ∈ writesOf (s2.log.drop s'.log.length), x.1 = y.1 → x.1 = 0x10005000) := by
  obtain ⟨s1, w1, hrun1, hwr1, hmem1, haddr1, hbits1⟩ := pwm_any_run channel freq duty s hc h32
  obtain ⟨s2, w2, hrun2, hwr2, _, haddr2, _⟩ := pwm_any_run channel2 freq2 duty2 s' hc2 h322
  refine ⟨s1, s2, hrun1, hrun2, ?_, ?_, hbits1, ?_⟩
  · intro a ha1 ha2
    rw [hmem1]
    apply applyWrites_untouched
    intro x hx e
    rcases haddr1 x hx with h | h
    · exact ha1 (e ▸ h)
    · exact ha2 (e ▸ h)
  · rw [hwr1]; exact haddr1
  · rw [hwr1, hwr2]
    intro x hx y hy e
    rcases haddr1 x hx with h | h
    · exact h
    · rcases haddr2 y hy with h2 | h2
      · rw [e]; exact h2
      · exfalso
        rw [← e] at h2
        simp only [List.mem_cons, List.mem_singleton, List.not_mem_nil, or_false] at h h2
        omega

/-- Witness of C16 for channels 0 and 3. -/
theorem pwm_frame_witness :
    ∃ s1 s2, pwm 0 1000 50 (Hw.const 0) = some s1 ∧ pwm 3 20 0 (Hw.const 7) = some s2 ∧
      (∀ a, a ≠ 0x10005000 →
        a ∉ [0x10005010 + 0x40 * 0, 0x10005014 + 0x40 * 0,
          0x10005018 + 0x40 * 0, 0x1000501C + 0x40 * 0,
          0x10005030 + 0x40 * 0, 0x10005034 + 0x40 * 0,
          0x10005038 + 0x40 * 0] →
        s1.mem a = (Hw.const 0).mem a) ∧
      (∀ x ∈ writesOf (s1.log.drop (Hw.const 0).log.length), x.1 = 0x10005000 ∨
        x.1 ∈ [0x10005010 + 0x40 * 0, 0x10005014 + 0x40 * 0,
          0x10005018 + 0x40 * 0, 0x1000501C + 0x40 * 0,
          0x10005030 + 0x40 * 0, 0x10005034 + 0x40 * 0,
          0x10005038 + 0x40 * 0]) ∧
      (∀ i, i < 32 → i ≠ 0 →
        (s1.mem 0x10005000).testBit i = ((Hw.const 0).mem 0x10005000).testBit i) ∧
      (∀ x ∈ writesOf (s1.log.drop (Hw.const 0).log.length),
        ∀ y ∈ writesOf (s2.log.drop (Hw.const 7).log.length), x.1 = y.1 → x.1 = 0x10005000) :=
  pwm_frame 0 1000 50 (Hw.const 0) 3 20 0 (Hw.const 7) (by decide) (by decide) (by decide)
    (by decide) (by decide)

/-! ## Auxiliary facts: checked arithmetic -/

theorem fastDurationChecked_eq (d freq : Nat) (hd : d ≤ 7) (hf : 0 < freq)
    (hq : 2 ^ d * freq < 2 ^ 32) :
    fastDurationChecked d freq = some (40000000 / (2 ^ d * freq)) := by
  have hp : 0 < 2 ^ d * freq := Nat.mul_pos (Nat.pow_pos (by decide)) hf
  rw [fastDurationChecked, cshl_one d (by omega)]
  simp only []
  rw [if_neg (by omega)]

theorem dividerLoopChecked_eq (freq : Nat) (hf : 0 < freq) :
    ∀ fuel d, d ≤ 7 → 2 ^ d * freq < 2 ^ 32 →
      dividerLoopChecked fuel freq d (40000000 / (2 ^ d * freq)) =
        dividerLoop fuel freq d (40000000 / (2 ^ d * freq)) := by
  intro fuel
  induction fuel with
  | zero => intro d _ _; rfl
  | succ n ih =>
    intro d hd hq
    have hp : 0 < 2 ^ d * freq := Nat.mul_pos (Nat.pow_pos (by decide)) hf
    by_cases hc : d < 7 ∧ 40000000 / (2 ^ d * freq) > 15000
    · have hb := over_limit_bound _ hp hc.2
      have hq1 : 2 ^ (d + 1) * freq < 2 ^ 32 := by
        have e : 2 ^ (d + 1) * freq = 2 * (2 ^ d * freq) := by ring
        omega
      have hm : (d + 1) % 2 ^ 8 = d + 1 := Nat.mod_eq_of_lt (by omega)
      rw [dividerLoopChecked, dividerLoop, if_pos hc, if_pos hc]
      simp only [hm, fastDuration_eq (d + 1) freq (by omega) hf hq1,
        fastDurationChecked_eq (d + 1) freq (by omega) hf hq1]
      exact ih (d + 1) (by omega) hq1
    · rw [dividerLoopChecked, dividerLoop, if_neg hc, if_neg hc]

theorem pwmTimingChecked_eq (freq : Nat) (hf : 0 < freq) (h32 : freq < 2 ^ 32) :
    pwmTimingChecked freq = pwmTiming freq := by
  have hq0 : 2 ^ 0 * freq < 2 ^ 32 := by omega
  rw [pwmTimingChecked, pwmTiming, fastDuration_eq 0 freq (by omega) hf hq0,
    fastDurationChecked_eq 0 freq (by omega) hf hq0]
  simp only [dividerLoopChecked_eq freq hf 8 0 (by omega) hq0]

/-- C17: for every 32-bit frequency > 0 the clock selection of `pwm` evaluated
with checked arithmetic (a zero divisor or a product `(1 << divider) * freq`
that does not fit in 32 bits is an error) returns, and returns the result of the
wrapping arithmetic of the code, so no executed division has a zero divisor and
no executed product wraps.  The selected duration and, for every duty in
[0,100], the products `duration*duty` and `duration*(100-duty)` are below 2^32,
and the two values stored in the duration registers are the untruncated
quotients. -/
theorem pwm_arithmetic_safe (freq : Nat) (hf : 0 < freq) (h32 : freq < 2 ^ 32) :
    ∃ t, pwmTimingChecked freq = some t ∧ pwmTiming freq = some t ∧
      t.duration < 2 ^ 32 ∧
      ∀ duty, duty ≤ 100 →
        t.duration * duty < 2 ^ 32 ∧ t.duration * (100 - duty) < 2 ^ 32 ∧
        duration0 t.duration duty = t.duration * duty / 100 ∧
        duration1 t.duration duty = t.duration * (100 - duty) / 100 := by
  obtain ⟨t, hsel⟩ := pwmTiming_some freq hf h32
  have hD := pwmTiming_duration_le freq t hf h32 hsel
  refine ⟨t, (pwmTimingChecked_eq freq hf h32).trans hsel, hsel, by omega, ?_⟩
  intro duty hd
  have h0 : t.duration * duty ≤ 100000 * 100 := Nat.mul_le_mul hD hd
  have h1 : t.duration * (100 - duty) ≤ 100000 * 100 := Nat.mul_le_mul hD (by omega)
  exact ⟨by omega, by omega, duration0_eq _ _ hD hd, duration1_eq _ _ hD hd⟩

/-- Witness of C17 at 2666 Hz, the largest frequency for which the loop advances. -/
theorem pwm_arithmetic_safe_witness :
    ∃ t, pwmTimingChecked 2666 = some t ∧ pwmTiming 2666 = some t ∧
      t.duration < 2 ^ 32 ∧
      ∀ duty, duty ≤ 100 →
        t.duration * duty < 2 ^ 32 ∧ t.duration * (100 - duty) < 2 ^ 32 ∧
        duration0 t.duration duty = t.duration * duty / 100 ∧
        duration1 t.duration duty = t.duration * (100 - duty) / 100 :=
  pwm_arithmetic_safe 2666 (by decide) (by decide)

/-! ## Auxiliary facts: page masks -/

end Omega2Pwm
